import Mathlib

/-!
TunicFreezer: the filename codec and the reconciliation cycle.

A shallow embedding of `src/main.go`.

* Go strings are modelled as lists of characters (`GoString`).  Every string
  operation the program uses (`strings.TrimSuffix`, `strings.HasSuffix`,
  `strings.LastIndex` with the one-character needle `"~"`, slicing,
  `strconv.Atoi`, `fmt.Sprintf`) works position by position and only ever
  compares with ASCII characters, so positions in the list play the role of
  byte offsets.
* Go's `int` is the 64-bit signed integer; values are modelled in `Int` and
  the only place where the width matters, the range check of `strconv.Atoi`,
  is explicit (`inIntRange`).  `poll` itself only compares generations.
* `Tracked` (a Go `map[string]int`) is an association list with distinct keys
  (`AList`); iterating over a map is modelled as iterating over its entries.
* `fmt.Println` is modelled by logging.  `reconcile` is the cycle on the decoded
  listing, with `deleteFile` as a request log: it returns the deletions
  requested and the notifications printed.  `poll` is the cycle on the directory
  itself: it decodes the names, runs the loops with `deleteFile` removing files
  from the directory, and ends in the `panic` of the program when a name does
  not decode or when `os.Remove` does not find the file.  The directory is given
  as the names of its files; a failure of `ioutil.ReadDir`, or of `os.Remove` on a
  file that is there, is outside the model.
-/

namespace TunicFreezer

/-- A Go string. -/
abbrev GoString := List Char

/-- The record `Save` of `main.go`. -/
structure Save where
  Name : GoString
  Incarnation : Int
  deriving DecidableEq, Repr

/-- The map type `Tracked` of `main.go`: slot name to protected incarnation. -/
abbrev Tracked := AList (fun _ : GoString => Int)

/-- The file extension `".tunic"`. -/
def tunicExt : GoString := ['.', 't', 'u', 'n', 'i', 'c']

/-! ## Library functions used by the program -/

/-- Go's `strings.HasSuffix`. -/
def HasSuffix (s suffix : GoString) : Bool :=
  suffix.length ≤ s.length && s.drop (s.length - suffix.length) == suffix

/-- Go's `strings.TrimSuffix`: drops `suffix` once when `s` ends with it. -/
def TrimSuffix (s suffix : GoString) : GoString :=
  if HasSuffix s suffix then s.take (s.length - suffix.length) else s

/-- Scan of `strings.LastIndex` for a one-character needle: `i` is the index of
the head of the remaining text, `last` the index of the last match so far. -/
def lastIndexFrom (c : Char) : GoString → Nat → Int → Int
  | [], _, last => last
  | x :: xs, i, last => lastIndexFrom c xs (i + 1) (if x = c then (i : Int) else last)

/-- Go's `strings.LastIndex(s, c)` for a one-character needle: the index of the
last occurrence of `c` in `s`, or `-1`. -/
def LastIndex (s : GoString) (c : Char) : Int :=
  lastIndexFrom c s 0 (-1)

/-- Errors of `strconv.Atoi`. -/
inductive NumError where
  | ErrSyntax
  | ErrRange
  deriving DecidableEq, Repr

/-- The range of Go's 64-bit `int`. -/
def inIntRange (v : Int) : Prop := -(2 : Int) ^ 63 ≤ v ∧ v < (2 : Int) ^ 63

instance (v : Int) : Decidable (inIntRange v) := by
  unfold inIntRange; infer_instance

/-- Value of a decimal digit character. -/
def digitVal (c : Char) : Option Nat :=
  if 48 ≤ c.toNat ∧ c.toNat ≤ 57 then some (c.toNat - 48) else none

/-- A decimal digit character. -/
abbrev isDigit (c : Char) : Prop := (digitVal c).isSome = true

/-- The digit loop of `strconv.ParseUint` in base 10: `n = n*10 + digit`,
failing on the first character that is not a decimal digit. -/
def parseDigits : Nat → GoString → Option Nat
  | acc, [] => some acc
  | acc, c :: cs =>
    match digitVal c with
    | none => none
    | some d => parseDigits (acc * 10 + d) cs

/-- The part of `strconv.Atoi` after the sign: at least one decimal digit and
nothing else (`ErrSyntax` otherwise); `ErrRange` when the signed value does not
fit an `int`. -/
def atoiBody (neg : Bool) (body : GoString) : Except NumError Int :=
  match body with
  | [] => .error .ErrSyntax
  | _ :: _ =>
    match parseDigits 0 body with
    | none => .error .ErrSyntax
    | some un =>
      let v : Int := if neg then -(un : Int) else (un : Int)
      if inIntRange v then .ok v else .error .ErrRange

/-- Go's `strconv.Atoi`: an optional sign `+` or `-`, then the digits. -/
def Atoi (s : GoString) : Except NumError Int :=
  match s with
  | [] => .error .ErrSyntax
  | c :: rest =>
    if c = '+' then atoiBody false rest
    else if c = '-' then atoiBody true rest
    else atoiBody false (c :: rest)

/-- The character of a decimal digit `d < 10`. -/
def digitChar (d : Nat) : Char := Char.ofNat (48 + d)

/-- The digit loop of `fmt`'s integer formatting in base 10: digits are
produced right to left, `acc` is the text already written.  `fuel` bounds the
number of divisions; `u` itself is always enough. -/
def fmtDigits : Nat → Nat → GoString → GoString
  | 0, u, acc => digitChar (u % 10) :: acc
  | fuel + 1, u, acc =>
    if 10 ≤ u then fmtDigits fuel (u / 10) (digitChar (u % 10) :: acc)
    else digitChar u :: acc

/-- Decimal rendering of a natural number. -/
def decimal (u : Nat) : GoString := fmtDigits u u []

/-- Left padding with `'0'` up to `prec` characters. -/
def zeroPad (prec : Nat) (digits : GoString) : GoString :=
  List.replicate (prec - digits.length) '0' ++ digits

/-- Go's `fmt.Sprintf("%012d", v)`: the digits are padded with zeros to width 12,
of which a minus sign takes one place. -/
def Sprintf012d (v : Int) : GoString :=
  if v < 0 then '-' :: zeroPad 11 (decimal v.natAbs) else zeroPad 12 (decimal v.natAbs)

/-! ## The program -/

/-- The name of the file `deleteFile` removes (lines 31-35 of `main.go`):
`Name`, then `~` and the `%012d` incarnation unless it is 0, then `.tunic`. -/
def deleteFileName (s : Save) : GoString :=
  let incarnation : GoString :=
    if s.Incarnation ≠ 0 then '~' :: Sprintf012d s.Incarnation else []
  s.Name ++ incarnation ++ tunicExt

/-- The function `getIncarnation` of `main.go`; the second component is Go's
`error` result (`none` is `nil`). -/
def getIncarnation (name : GoString) : Save × Option NumError :=
  let s := TrimSuffix name tunicExt
  let delimiter := LastIndex s '~'
  if delimiter = -1 then
    (⟨s, 0⟩, none)
  else
    match Atoi (s.drop (delimiter + 1).toNat) with
    | .error err => (⟨s.take delimiter.toNat, -1⟩, some err)
    | .ok incarnation => (⟨s.take delimiter.toNat, incarnation⟩, none)

/-- The on-disk naming convention `<slot>[~<incarnation:012d>].tunic`: the text
before `.tunic` has no `~`, or what follows its last `~` is the `%012d`
rendering of an incarnation other than 0. -/
def followsConvention (name : GoString) : Prop :=
  LastIndex (TrimSuffix name tunicExt) '~' = -1 ∨
  ∃ v : Int, v ≠ 0 ∧
    (TrimSuffix name tunicExt).drop (LastIndex (TrimSuffix name tunicExt) '~' + 1).toNat
      = Sprintf012d v

/-- What `poll` prints besides the `Deleted` lines. -/
inductive Notification where
  | Protecting (name : GoString) (incarnation : Int)
  | NoLongerProtecting (name : GoString)
  deriving DecidableEq, Repr

/-- The variables of the first loop of `poll` (lines 79-102): the map `found`
and the deletions requested so far through `deleteFile`. -/
structure Scan where
  found : Tracked
  deleted : List Save

/-- One iteration of the first loop of `poll` (lines 81-102). -/
def scanStep (t : Tracked) (st : Scan) (save : Save) : Scan :=
  match t.lookup save.Name with
  | some tracked =>
    if tracked ≠ save.Incarnation then { st with deleted := st.deleted ++ [save] } else st
  | none =>
    match st.found.lookup save.Name with
    | some stored =>
      if save.Incarnation > stored then
        { st with found := st.found.insert save.Name save.Incarnation }
      else st
    | none => { st with found := st.found.insert save.Name save.Incarnation }

/-- One iteration of the second loop of `poll` (lines 104-113). -/
def supersedeStep (found : Tracked) (deleted : List Save) (save : Save) : List Save :=
  match found.lookup save.Name with
  | some stored => if stored ≠ save.Incarnation then deleted ++ [save] else deleted
  | none => deleted

/-- One iteration of the third loop of `poll` (lines 115-118). -/
def commitStep (st : Tracked × List Notification) (e : Sigma fun _ : GoString => Int) :
    Tracked × List Notification :=
  (st.1.insert e.1 e.2, st.2 ++ [Notification.Protecting e.1 e.2])

/-- One iteration of the last loop of `poll` (lines 121-133); the inner loop
over `saves` is the search `saves.any`. -/
def forgetStep (saves : List Save) (st : Tracked × List Notification) (name : GoString) :
    Tracked × List Notification :=
  if saves.any (fun save => save.Name = name) then st
  else (st.1.erase name, st.2 ++ [Notification.NoLongerProtecting name])

/-- What one call of `poll` yields: the returned map, the saves handed to
`deleteFile` in order, and the notifications printed in order. -/
structure Outcome where
  tracker : Tracked
  deleted : List Save
  notes : List Notification

/-- The first loop of `poll` (lines 79-102), started with `found` empty and
nothing deleted. -/
def scan (t : Tracked) (saves : List Save) : Scan :=
  saves.foldl (scanStep t) ⟨∅, []⟩

/-- The test in front of both calls of `deleteFile` in `poll`: the slot name is
a key of `m` and the incarnation stored there is not the one of `save`. -/
def differs (m : Tracked) (save : Save) : Bool :=
  match m.lookup save.Name with
  | some stored => decide (stored ≠ save.Incarnation)
  | none => false

/-- Lines 79-135 of `poll`: the reconciliation of the tracker `t` with the
decoded directory listing `saves`. -/
def reconcile (t : Tracked) (saves : List Save) : Outcome :=
  let st := scan t saves
  let deleted := saves.foldl (supersedeStep st.found) st.deleted
  let committed := st.found.entries.foldl commitStep (t, [])
  let final := committed.1.keys.foldl (forgetStep saves) committed
  ⟨final.1, deleted, final.2⟩

/-- Lines 66-77 of `poll`: the decoding of the directory listing; `none` is the
`panic` on a name `getIncarnation` rejects. -/
def readSaves : List GoString → Option (List Save)
  | [] => some []
  | name :: files =>
    if !HasSuffix name tunicExt then readSaves files
    else
      match getIncarnation name with
      | (_, some _) => none
      | (save, none) => (readSaves files).map (fun saves => save :: saves)

/-- The configured directory, as the names of the files in it. -/
abbrev Directory := List GoString

/-- The function `deleteFile` of `main.go` (lines 30-42) on the directory: it
removes the file of the name it builds, and `os.Remove` fails, so that
`deleteFile` panics, when the directory has no file of that name.  The result
`.error` is the panic, with the directory as it is at that moment. -/
def deleteFile (s : Save) (dir : Directory) : Except Directory Directory :=
  if deleteFileName s ∈ dir then
    .ok (dir.filter (fun f => decide (f ≠ deleteFileName s)))
  else .error dir

/-- A loop `for _, save := range saves` whose body may panic: the first panic
ends the loop. -/
def forSaves {σ : Type} (body : σ → Save → Except Directory σ) :
    σ → List Save → Except Directory σ
  | st, [] => .ok st
  | st, save :: rest =>
    match body st save with
    | .error dir => .error dir
    | .ok st' => forSaves body st' rest

/-- One iteration of the first loop of `poll` (lines 81-102) on the directory. -/
def pollScanStep (t : Tracked) (st : Scan × Directory) (save : Save) :
    Except Directory (Scan × Directory) :=
  match t.lookup save.Name with
  | some tracked =>
    if tracked ≠ save.Incarnation then
      match deleteFile save st.2 with
      | .error dir => .error dir
      | .ok dir => .ok ({ st.1 with deleted := st.1.deleted ++ [save] }, dir)
    else .ok st
  | none =>
    match st.1.found.lookup save.Name with
    | some stored =>
      if save.Incarnation > stored then
        .ok ({ st.1 with found := st.1.found.insert save.Name save.Incarnation }, st.2)
      else .ok st
    | none => .ok ({ st.1 with found := st.1.found.insert save.Name save.Incarnation }, st.2)

/-- One iteration of the second loop of `poll` (lines 104-113) on the directory. -/
def pollSupersedeStep (found : Tracked) (st : List Save × Directory) (save : Save) :
    Except Directory (List Save × Directory) :=
  match found.lookup save.Name with
  | some stored =>
    if stored ≠ save.Incarnation then
      match deleteFile save st.2 with
      | .error dir => .error dir
      | .ok dir => .ok (st.1 ++ [save], dir)
    else .ok st
  | none => .ok st

/-- The function `poll` of `main.go` on the directory `dir`.  The result `.ok` is
the return of `poll`, with what it returned, deleted and printed and with the
directory it leaves; `.error` is a panic, on a name `getIncarnation` rejects or
in `deleteFile`, with the directory as it is at that moment. -/
def poll (t : Tracked) (dir : Directory) : Except Directory (Outcome × Directory) :=
  match readSaves dir with
  | none => .error dir
  | some saves =>
    match forSaves (pollScanStep t) (⟨∅, []⟩, dir) saves with
    | .error dir' => .error dir'
    | .ok st =>
      match forSaves (pollSupersedeStep st.1.found) (st.1.deleted, st.2) saves with
      | .error dir' => .error dir'
      | .ok del =>
        let committed := st.1.found.entries.foldl commitStep (t, [])
        let final := committed.1.keys.foldl (forgetStep saves) committed
        .ok (⟨final.1, del.1, final.2⟩, del.2)

/-- The calls of `deleteFile` on the saves of `deleted`, in order, on the
directory. -/
def runDeletes (deleted : List Save) (dir : Directory) : Except Directory Directory :=
  forSaves (fun d save => deleteFile save d) dir deleted

/-! ## Facts about the library functions -/

theorem HasSuffix_append (a suffix : GoString) : HasSuffix (a ++ suffix) suffix = true := by
  simp [HasSuffix]

theorem TrimSuffix_append (a suffix : GoString) : TrimSuffix (a ++ suffix) suffix = a := by
  simp [TrimSuffix, HasSuffix_append]

theorem lastIndexFrom_of_not_mem (c : Char) (xs : GoString) (i : Nat) (last : Int)
    (h : c ∉ xs) : lastIndexFrom c xs i last = last := by
  induction xs generalizing i last with
  | nil => rfl
  | cons x xs ih =>
    simp only [List.mem_cons, not_or] at h
    have hx : ¬ x = c := fun e => h.1 e.symm
    simp [lastIndexFrom, hx, ih _ _ h.2]

theorem lastIndexFrom_append_cons (c : Char) (a d : GoString) (i : Nat) (last : Int)
    (h : c ∉ d) : lastIndexFrom c (a ++ c :: d) i last = ((i + a.length : Nat) : Int) := by
  induction a generalizing i last with
  | nil => simp [lastIndexFrom, lastIndexFrom_of_not_mem c d _ _ h]
  | cons x a ih =>
    show lastIndexFrom c (a ++ c :: d) (i + 1) (if x = c then (i : Int) else last) = _
    rw [ih, List.length_cons]
    congr 1
    omega

theorem LastIndex_of_not_mem (c : Char) (s : GoString) (h : c ∉ s) : LastIndex s c = -1 :=
  lastIndexFrom_of_not_mem c s 0 (-1) h

theorem LastIndex_append_cons (c : Char) (a d : GoString) (h : c ∉ d) :
    LastIndex (a ++ c :: d) c = (a.length : Int) := by
  simp [LastIndex, lastIndexFrom_append_cons c a d 0 (-1) h]

/-- Either the needle does not occur and `LastIndex` is `-1`, or the text splits
at the last occurrence and `LastIndex` is the length of the part before it. -/
theorem LastIndex_cases (c : Char) (s : GoString) :
    (c ∉ s ∧ LastIndex s c = -1) ∨
    (∃ a d, s = a ++ c :: d ∧ c ∉ d ∧ LastIndex s c = (a.length : Int)) := by
  by_cases h : c ∈ s
  · right
    have hr : c ∈ s.reverse := List.mem_reverse.mpr h
    obtain ⟨u, v, huv, hu⟩ := List.eq_append_cons_of_mem hr
    refine ⟨v.reverse, u.reverse, ?_, ?_, ?_⟩
    · have := congrArg List.reverse huv
      simpa using this
    · simpa using hu
    · have hs : s = v.reverse ++ c :: u.reverse := by
        have := congrArg List.reverse huv
        simpa using this
      rw [hs]
      exact LastIndex_append_cons c _ _ (by simpa using hu)
  · exact Or.inl ⟨h, LastIndex_of_not_mem c s h⟩

theorem digitVal_digitChar (d : Nat) (h : d < 10) : digitVal (digitChar d) = some d := by
  interval_cases d <;> rfl

theorem isDigit_digitChar (d : Nat) (h : d < 10) : isDigit (digitChar d) := by
  simp [isDigit, digitVal_digitChar d h]

theorem parseDigits_append (acc : Nat) (xs ys : GoString) :
    parseDigits acc (xs ++ ys) = (parseDigits acc xs).bind (fun n => parseDigits n ys) := by
  induction xs generalizing acc with
  | nil => rfl
  | cons x xs ih =>
    simp only [List.cons_append, parseDigits]
    cases digitVal x with
    | none => rfl
    | some d => exact ih _

theorem fmtDigits_acc (fuel u : Nat) (acc : GoString) :
    fmtDigits fuel u acc = fmtDigits fuel u [] ++ acc := by
  induction fuel generalizing u acc with
  | zero => simp [fmtDigits]
  | succ fuel ih =>
    simp only [fmtDigits]
    split
    · rw [ih (u / 10) (digitChar (u % 10) :: acc), ih (u / 10) [digitChar (u % 10)]]
      simp
    · simp

theorem parseDigits_fmtDigits (fuel u : Nat) (h : u ≤ fuel) :
    parseDigits 0 (fmtDigits fuel u []) = some u := by
  induction fuel generalizing u with
  | zero =>
    have hu : u = 0 := by omega
    subst hu
    rfl
  | succ fuel ih =>
    simp only [fmtDigits]
    split
    · rename_i h10
      rw [fmtDigits_acc, parseDigits_append, ih (u / 10) (by omega)]
      simp only [Option.bind, parseDigits, digitVal_digitChar (u % 10) (Nat.mod_lt _ (by omega))]
      congr 1
      omega
    · simp only [parseDigits, digitVal_digitChar u (by omega)]
      simp

theorem isDigit_of_mem_fmtDigits (fuel u : Nat) (c : Char) (h : c ∈ fmtDigits fuel u []) :
    isDigit c := by
  induction fuel generalizing u with
  | zero =>
    simp only [fmtDigits, List.mem_singleton] at h
    subst h
    exact isDigit_digitChar _ (Nat.mod_lt _ (by omega))
  | succ fuel ih =>
    simp only [fmtDigits] at h
    split at h
    · rw [fmtDigits_acc] at h
      rcases List.mem_append.mp h with h | h
      · exact ih _ h
      · simp only [List.mem_singleton] at h
        subst h
        exact isDigit_digitChar _ (Nat.mod_lt _ (by omega))
    · simp only [List.mem_singleton] at h
      subst h
      exact isDigit_digitChar _ (by omega)

theorem fmtDigits_ne_nil (fuel u : Nat) : fmtDigits fuel u [] ≠ [] := by
  cases fuel with
  | zero => simp [fmtDigits]
  | succ fuel =>
    simp only [fmtDigits]
    split
    · rw [fmtDigits_acc]; simp
    · simp

theorem parseDigits_decimal (u : Nat) : parseDigits 0 (decimal u) = some u :=
  parseDigits_fmtDigits u u (Nat.le_refl u)

theorem parseDigits_zeros (k : Nat) (xs : GoString) :
    parseDigits 0 (List.replicate k '0' ++ xs) = parseDigits 0 xs := by
  induction k with
  | zero => rfl
  | succ k ih =>
    rw [List.replicate_succ, List.cons_append]
    show (match digitVal '0' with
      | none => none
      | some d => parseDigits (0 * 10 + d) (List.replicate k '0' ++ xs)) = _
    exact ih

theorem parseDigits_zeroPad (prec u : Nat) : parseDigits 0 (zeroPad prec (decimal u)) = some u := by
  rw [zeroPad, parseDigits_zeros, parseDigits_decimal]

theorem isDigit_of_mem_zeroPad (prec u : Nat) (c : Char) (h : c ∈ zeroPad prec (decimal u)) :
    isDigit c := by
  rcases List.mem_append.mp h with h | h
  · rw [List.eq_of_mem_replicate h]
    decide
  · exact isDigit_of_mem_fmtDigits u u c h

theorem zeroPad_ne_nil (prec u : Nat) : zeroPad prec (decimal u) ≠ [] := by
  simp [zeroPad, decimal, fmtDigits_ne_nil]

theorem atoiBody_zeroPad (neg : Bool) (prec u : Nat) :
    atoiBody neg (zeroPad prec (decimal u)) =
      if inIntRange (if neg then -(u : Int) else (u : Int)) then
        .ok (if neg then -(u : Int) else (u : Int))
      else .error .ErrRange := by
  have hne := zeroPad_ne_nil prec u
  have hp := parseDigits_zeroPad prec u
  generalize zeroPad prec (decimal u) = body at hne hp
  cases body with
  | nil => exact absurd rfl hne
  | cons c cs => simp only [atoiBody, hp]

/-- What `strconv.Atoi` reads back from a text written with `%012d`. -/
theorem Atoi_Sprintf012d (v : Int) :
    Atoi (Sprintf012d v) = if inIntRange v then .ok v else .error .ErrRange := by
  unfold Sprintf012d
  split
  · rename_i hneg
    have hv : (if true = true then -((v.natAbs : Nat) : Int) else (v.natAbs : Int)) = v := by
      simp only [if_true]; omega
    have := atoiBody_zeroPad true 11 v.natAbs
    rw [hv] at this
    simpa [Atoi] using this
  · rename_i hpos
    have hv : (if false = true then -((v.natAbs : Nat) : Int) else (v.natAbs : Int)) = v := by
      simp only [Bool.false_eq_true, if_false]; omega
    have hb := atoiBody_zeroPad false 12 v.natAbs
    rw [hv] at hb
    have hne := zeroPad_ne_nil 12 v.natAbs
    have hd := isDigit_of_mem_zeroPad 12 v.natAbs
    generalize zeroPad 12 (decimal v.natAbs) = body at hne hd hb
    cases body with
    | nil => exact absurd rfl hne
    | cons c cs =>
      have hc : isDigit c := hd c (List.mem_cons_self _ _)
      have h1 : c ≠ '+' := by rintro rfl; revert hc; decide
      have h2 : c ≠ '-' := by rintro rfl; revert hc; decide
      simp only [Atoi, h1, h2, if_false]
      exact hb

theorem tilde_not_mem_Sprintf012d (v : Int) : '~' ∉ Sprintf012d v := by
  intro h
  unfold Sprintf012d at h
  split at h
  · rcases List.mem_cons.mp h with h | h
    · revert h; decide
    · have := isDigit_of_mem_zeroPad 11 v.natAbs _ h
      revert this; decide
  · have := isDigit_of_mem_zeroPad 12 v.natAbs _ h
    revert this; decide

/-! ## Facts about the codec -/

theorem eq_TrimSuffix_append (name suffix : GoString) (h : HasSuffix name suffix = true) :
    name = TrimSuffix name suffix ++ suffix := by
  have h' := h
  simp only [HasSuffix, Bool.and_eq_true, decide_eq_true_eq, beq_iff_eq] at h'
  simp only [TrimSuffix, h, if_true]
  conv_lhs => rw [← List.take_append_drop (name.length - suffix.length) name]
  rw [h'.2]

theorem drop_after_delimiter (a d : GoString) (c : Char) :
    List.drop (a.length + 1) (a ++ c :: d) = d := by
  induction a with
  | nil => rfl
  | cons x a ih => simp

/-- Decoding a name whose stem has no `~`. -/
theorem getIncarnation_plain (a : GoString) (h : '~' ∉ a) :
    getIncarnation (a ++ tunicExt) = (⟨a, 0⟩, none) := by
  simp [getIncarnation, TrimSuffix_append, LastIndex_of_not_mem _ _ h]

/-- Decoding a name whose stem splits at its last `~` into `a` and `d`. -/
theorem getIncarnation_split (a d : GoString) (h : '~' ∉ d) :
    getIncarnation (a ++ '~' :: d ++ tunicExt) =
      match Atoi d with
      | .error err => (⟨a, -1⟩, some err)
      | .ok incarnation => (⟨a, incarnation⟩, none) := by
  have hl : LastIndex (a ++ '~' :: d) '~' = (a.length : Int) := LastIndex_append_cons _ _ _ h
  have hne : ¬ ((a.length : Int) = -1) := by omega
  have h1 : ((a.length : Int) + 1).toNat = a.length + 1 := by omega
  simp only [getIncarnation, TrimSuffix_append, hl, hne, if_false, h1, Int.toNat_ofNat]
  have hd : List.drop (a.length + 1) (a ++ '~' :: d) = d := drop_after_delimiter a d '~'
  have ht : List.take a.length (a ++ '~' :: d) = a := by simp
  rw [hd, ht]

/-- Decoding the name `deleteFile` builds gives the save back, whenever the slot
name has no `~` and the incarnation is a Go `int`. -/
theorem getIncarnation_deleteFileName (s : Save) (htilde : '~' ∉ s.Name)
    (hint : inIntRange s.Incarnation) : getIncarnation (deleteFileName s) = (s, none) := by
  obtain ⟨n, g⟩ := s
  simp only at htilde hint
  by_cases hg : g = 0
  · subst hg
    simp [deleteFileName, getIncarnation_plain n htilde]
  · have : deleteFileName ⟨n, g⟩ = n ++ '~' :: Sprintf012d g ++ tunicExt := by
      simp [deleteFileName, hg]
    rw [this, getIncarnation_split n _ (tilde_not_mem_Sprintf012d g), Atoi_Sprintf012d,
      if_pos hint]

/-- On a name that follows the convention, `deleteFile` builds the very name that
was decoded. -/
theorem deleteFileName_getIncarnation (f : GoString) (s : Save)
    (hext : HasSuffix f tunicExt = true) (hdec : getIncarnation f = (s, none))
    (hconv : followsConvention f) : deleteFileName s = f := by
  have hf := eq_TrimSuffix_append f tunicExt hext
  unfold followsConvention at hconv
  generalize TrimSuffix f tunicExt = stem at hf hconv
  subst hf
  by_cases hl : LastIndex stem '~' = -1
  · rcases LastIndex_cases '~' stem with ⟨hno, _⟩ | ⟨a, d, _, _, hk⟩
    · rw [getIncarnation_plain stem hno] at hdec
      cases hdec
      simp [deleteFileName]
    · omega
  · rcases hconv with h | ⟨v, hv, hdrop⟩
    · exact absurd h hl
    · rcases LastIndex_cases '~' stem with ⟨_, hk⟩ | ⟨a, d, hs, hd, hk⟩
      · exact absurd hk hl
      · subst hs
        have h1 : ((a.length : Int) + 1).toNat = a.length + 1 := by omega
        rw [hk, h1, drop_after_delimiter] at hdrop
        subst hdrop
        rw [getIncarnation_split a _ hd, Atoi_Sprintf012d] at hdec
        by_cases hr : inIntRange v
        · rw [if_pos hr] at hdec
          cases hdec
          simp [deleteFileName, hv]
        · rw [if_neg hr] at hdec
          cases hdec

/-! ## Facts about the loops of `poll` -/

/-- The first loop keeps its invariant: `found` holds exactly the untracked
slot names met so far, each with the highest incarnation met so far, and the
deletions are the saves met so far that differ from the tracker. -/
theorem scanStep_inv (t : Tracked) (p : List Save) (st : Scan) (x : Save)
    (h1 : ∀ n, st.found.lookup n = none ↔ (t.lookup n ≠ none ∨ ∀ sv ∈ p, sv.Name ≠ n))
    (h2 : ∀ n g, st.found.lookup n = some g →
      (∃ sv ∈ p, sv.Name = n ∧ sv.Incarnation = g) ∧ ∀ sv ∈ p, sv.Name = n → sv.Incarnation ≤ g)
    (h3 : st.deleted = p.filter (differs t)) :
    (∀ n, (scanStep t st x).found.lookup n = none ↔
      (t.lookup n ≠ none ∨ ∀ sv ∈ p ++ [x], sv.Name ≠ n)) ∧
    (∀ n g, (scanStep t st x).found.lookup n = some g →
      (∃ sv ∈ p ++ [x], sv.Name = n ∧ sv.Incarnation = g) ∧
        ∀ sv ∈ p ++ [x], sv.Name = n → sv.Incarnation ≤ g) ∧
    (scanStep t st x).deleted = (p ++ [x]).filter (differs t) := by
  have key : ∀ n, n ≠ x.Name → ((∀ sv ∈ p ++ [x], sv.Name ≠ n) ↔ ∀ sv ∈ p, sv.Name ≠ n) := by
    intro n hn
    constructor
    · intro h sv hsv; exact h sv (List.mem_append_left _ hsv)
    · intro h sv hsv
      rcases List.mem_append.mp hsv with hsv | hsv
      · exact h sv hsv
      · rw [List.mem_singleton.mp hsv]; exact fun e => hn e.symm
  have keep : ∀ n g, ((∃ sv ∈ p, sv.Name = n ∧ sv.Incarnation = g) ∧
        ∀ sv ∈ p, sv.Name = n → sv.Incarnation ≤ g) → (x.Name = n → x.Incarnation ≤ g) →
      (∃ sv ∈ p ++ [x], sv.Name = n ∧ sv.Incarnation = g) ∧
        ∀ sv ∈ p ++ [x], sv.Name = n → sv.Incarnation ≤ g := by
    rintro n g ⟨⟨sv, hsv, hn, hg⟩, hmax⟩ hx
    refine ⟨⟨sv, List.mem_append_left _ hsv, hn, hg⟩, ?_⟩
    intro sv' hsv' hn'
    rcases List.mem_append.mp hsv' with hsv' | hsv'
    · exact hmax sv' hsv' hn'
    · rw [List.mem_singleton.mp hsv'] at hn' ⊢; exact hx hn'
  have fresh : ∀ g, (∀ sv ∈ p, sv.Name = x.Name → sv.Incarnation ≤ g) → x.Incarnation = g →
      (∃ sv ∈ p ++ [x], sv.Name = x.Name ∧ sv.Incarnation = g) ∧
        ∀ sv ∈ p ++ [x], sv.Name = x.Name → sv.Incarnation ≤ g := by
    intro g hmax hx
    refine ⟨⟨x, by simp, rfl, hx⟩, ?_⟩
    intro sv' hsv' hn'
    rcases List.mem_append.mp hsv' with hsv' | hsv'
    · exact hmax sv' hsv' hn'
    · rw [List.mem_singleton.mp hsv']; exact le_of_eq hx
  have hx_mem : x ∈ p ++ [x] := by simp
  cases ht : t.lookup x.Name with
  | some tracked =>
    have hfound : (scanStep t st x).found = st.found := by
      simp only [scanStep, ht]; split <;> rfl
    have hdel : (scanStep t st x).deleted = st.deleted ++ (if differs t x then [x] else []) := by
      simp only [scanStep, ht, differs]
      by_cases hne : tracked = x.Incarnation <;> simp [hne]
    refine ⟨?_, ?_, ?_⟩
    · intro n
      rw [hfound, h1 n]
      by_cases hn : n = x.Name
      · subst hn; simp [ht]
      · rw [key n hn]
    · intro n g hg
      rw [hfound] at hg
      have hn : x.Name ≠ n := by
        intro e
        have := (h1 n).mpr (Or.inl (by rw [← e, ht]; simp))
        rw [this] at hg; cases hg
      exact keep n g (h2 n g hg) (fun e => absurd e hn)
    · rw [hdel, h3, List.filter_append]
      congr 1
      by_cases hd : differs t x = true <;> simp [List.filter, hd]
  | none =>
    have hdiff : differs t x = false := by simp [differs, ht]
    have hdel : (scanStep t st x).deleted = (p ++ [x]).filter (differs t) := by
      have : (scanStep t st x).deleted = st.deleted := by
        simp only [scanStep, ht]; split
        · split <;> rfl
        · rfl
      rw [this, h3, List.filter_append]
      simp [hdiff]
    cases hf : st.found.lookup x.Name with
    | some stored =>
      by_cases hgt : x.Incarnation > stored
      · have hfound : (scanStep t st x).found = st.found.insert x.Name x.Incarnation := by
          simp [scanStep, ht, hf, hgt]
        refine ⟨?_, ?_, hdel⟩
        · intro n
          rw [hfound]
          by_cases hn : n = x.Name
          · subst hn
            simp only [AList.lookup_insert, ht, ne_eq, not_true_eq_false, false_or, false_iff,
              reduceCtorEq]
            intro h; exact h x hx_mem rfl
          · rw [AList.lookup_insert_ne hn, h1 n, key n hn]
        · intro n g hg
          rw [hfound] at hg
          by_cases hn : n = x.Name
          · subst hn
            rw [AList.lookup_insert] at hg
            cases hg
            exact fresh _ (fun sv hsv hnm =>
              le_trans ((h2 _ _ hf).2 sv hsv hnm) (le_of_lt hgt)) rfl
          · rw [AList.lookup_insert_ne hn] at hg
            exact keep n g (h2 n g hg) (fun e => absurd e.symm hn)
      · have hfound : (scanStep t st x).found = st.found := by
          simp [scanStep, ht, hf, hgt]
        refine ⟨?_, ?_, hdel⟩
        · intro n
          rw [hfound, h1 n]
          by_cases hn : n = x.Name
          · subst hn
            have := (h1 x.Name).not.mp (by rw [hf]; simp)
            simp only [not_or] at this
            constructor
            · intro h; exact absurd h (by simpa [not_or] using this)
            · rintro (h | h)
              · exact absurd ht h
              · exact absurd rfl (h x hx_mem)
          · rw [key n hn]
        · intro n g hg
          rw [hfound] at hg
          refine keep n g (h2 n g hg) ?_
          intro e
          subst e
          rw [hf] at hg
          cases hg
          exact not_lt.mp hgt
    | none =>
      have hfound : (scanStep t st x).found = st.found.insert x.Name x.Incarnation := by
        simp [scanStep, ht, hf]
      have hnone : ∀ sv ∈ p, sv.Name ≠ x.Name := by
        rcases (h1 x.Name).mp hf with h | h
        · exact absurd ht h
        · exact h
      refine ⟨?_, ?_, hdel⟩
      · intro n
        rw [hfound]
        by_cases hn : n = x.Name
        · subst hn
          simp only [AList.lookup_insert, ht, ne_eq, not_true_eq_false, false_or, false_iff,
            reduceCtorEq]
          intro h; exact h x hx_mem rfl
        · rw [AList.lookup_insert_ne hn, h1 n, key n hn]
      · intro n g hg
        rw [hfound] at hg
        by_cases hn : n = x.Name
        · subst hn
          rw [AList.lookup_insert] at hg
          cases hg
          exact fresh _ (fun sv hsv hnm => absurd hnm (hnone sv hsv)) rfl
        · rw [AList.lookup_insert_ne hn] at hg
          exact keep n g (h2 n g hg) (fun e => absurd e.symm hn)

theorem scan_fold_inv (t : Tracked) (xs p : List Save) (st : Scan)
    (h1 : ∀ n, st.found.lookup n = none ↔ (t.lookup n ≠ none ∨ ∀ sv ∈ p, sv.Name ≠ n))
    (h2 : ∀ n g, st.found.lookup n = some g →
      (∃ sv ∈ p, sv.Name = n ∧ sv.Incarnation = g) ∧ ∀ sv ∈ p, sv.Name = n → sv.Incarnation ≤ g)
    (h3 : st.deleted = p.filter (differs t)) :
    (∀ n, (xs.foldl (scanStep t) st).found.lookup n = none ↔
      (t.lookup n ≠ none ∨ ∀ sv ∈ p ++ xs, sv.Name ≠ n)) ∧
    (∀ n g, (xs.foldl (scanStep t) st).found.lookup n = some g →
      (∃ sv ∈ p ++ xs, sv.Name = n ∧ sv.Incarnation = g) ∧
        ∀ sv ∈ p ++ xs, sv.Name = n → sv.Incarnation ≤ g) ∧
    (xs.foldl (scanStep t) st).deleted = (p ++ xs).filter (differs t) := by
  induction xs generalizing p st with
  | nil => simpa using ⟨h1, h2, h3⟩
  | cons x xs ih =>
    obtain ⟨i1, i2, i3⟩ := scanStep_inv t p st x h1 h2 h3
    have := ih (p ++ [x]) (scanStep t st x) i1 i2 i3
    simpa [List.append_assoc] using this

/-- After the first loop, a slot name is missing from `found` exactly when it is
tracked already or has no save in the listing. -/
theorem scan_found_none (t : Tracked) (saves : List Save) (n : GoString) :
    (scan t saves).found.lookup n = none ↔
      (t.lookup n ≠ none ∨ ∀ sv ∈ saves, sv.Name ≠ n) := by
  have := (scan_fold_inv t saves [] ⟨∅, []⟩ (by simp) (by simp) (by simp)).1 n
  simpa [scan] using this

/-- After the first loop, `found` holds for a slot name the highest incarnation
of that name in the listing. -/
theorem scan_found_some (t : Tracked) (saves : List Save) (n : GoString) (g : Int)
    (h : (scan t saves).found.lookup n = some g) :
    (∃ sv ∈ saves, sv.Name = n ∧ sv.Incarnation = g) ∧
      ∀ sv ∈ saves, sv.Name = n → sv.Incarnation ≤ g := by
  have := (scan_fold_inv t saves [] ⟨∅, []⟩ (by simp) (by simp) (by simp)).2.1 n g
  simp only [List.nil_append] at this
  exact this h

theorem scan_deleted (t : Tracked) (saves : List Save) :
    (scan t saves).deleted = saves.filter (differs t) := by
  have := (scan_fold_inv t saves [] ⟨∅, []⟩ (by simp) (by simp) (by simp)).2.2
  simpa [scan] using this

theorem supersede_fold (found : Tracked) (saves deleted : List Save) :
    saves.foldl (supersedeStep found) deleted = deleted ++ saves.filter (differs found) := by
  induction saves generalizing deleted with
  | nil => simp
  | cons x xs ih =>
    rw [List.foldl_cons, ih]
    have : supersedeStep found deleted x = deleted ++ (if differs found x then [x] else []) := by
      cases hf : found.lookup x.Name with
      | none => simp [supersedeStep, differs, hf]
      | some stored => by_cases hne : stored = x.Incarnation <;> simp [supersedeStep, differs, hf, hne]
    rw [this]
    by_cases hd : differs found x = true <;> simp [List.filter, hd]

theorem commit_fold_tracker (l : List (Sigma fun _ : GoString => Int)) (hl : l.NodupKeys)
    (st : Tracked × List Notification) (n : GoString) :
    (l.foldl commitStep st).1.lookup n =
      match List.dlookup n l with
      | some g => some g
      | none => st.1.lookup n := by
  induction l generalizing st with
  | nil => simp
  | cons e l ih =>
    rw [List.foldl_cons, ih (List.nodupKeys_cons.mp hl).2]
    obtain ⟨k, v⟩ := e
    by_cases hn : n = k
    · subst hn
      have hnot : n ∉ l.keys := (List.nodupKeys_cons.mp hl).1
      rw [List.dlookup_eq_none.mpr hnot, List.dlookup_cons_eq]
      simp [commitStep]
    · rw [List.dlookup_cons_ne _ _ hn]
      cases List.dlookup n l with
      | some g => rfl
      | none => simp [commitStep, AList.lookup_insert_ne hn]

theorem commit_fold_notes (l : List (Sigma fun _ : GoString => Int))
    (st : Tracked × List Notification) :
    (l.foldl commitStep st).2 = st.2 ++ l.map (fun e => Notification.Protecting e.1 e.2) := by
  induction l generalizing st with
  | nil => simp
  | cons e l ih => rw [List.foldl_cons, ih]; simp [commitStep]

theorem forget_fold_tracker (saves : List Save) (ks : List GoString)
    (st : Tracked × List Notification) (n : GoString) :
    (ks.foldl (forgetStep saves) st).1.lookup n =
      if n ∈ ks ∧ ¬ (∃ sv ∈ saves, sv.Name = n) then none else st.1.lookup n := by
  induction ks generalizing st with
  | nil => simp
  | cons k ks ih =>
    rw [List.foldl_cons, ih]
    by_cases hsv : ∃ sv ∈ saves, sv.Name = n
    · have hstep : (forgetStep saves st k).1.lookup n = st.1.lookup n := by
        unfold forgetStep
        split
        · rfl
        · rename_i hany
          have hk : n ≠ k := by
            rintro rfl
            apply hany
            obtain ⟨sv, hm, he⟩ := hsv
            exact List.any_eq_true.mpr ⟨sv, hm, by simpa using he⟩
          exact AList.lookup_erase_ne hk
      simp [hsv, hstep]
    · by_cases hks : n ∈ ks
      · simp [hsv, hks]
      · by_cases hk : n = k
        · subst hk
          have hany : ¬ (saves.any (fun save => decide (save.Name = n)) = true) := by
            intro h
            obtain ⟨sv, hm, he⟩ := List.any_eq_true.mp h
            exact hsv ⟨sv, hm, by simpa using he⟩
          simp [hsv, hks, forgetStep, hany]
        · have hstep : (forgetStep saves st k).1.lookup n = st.1.lookup n := by
            unfold forgetStep
            split
            · rfl
            · exact AList.lookup_erase_ne hk
          simp [hsv, hks, hk, hstep]

theorem forget_fold_notes (saves : List Save) (ks : List GoString)
    (st : Tracked × List Notification) :
    (ks.foldl (forgetStep saves) st).2 =
      st.2 ++ (ks.filter (fun k => !saves.any (fun save => decide (save.Name = k)))).map
        Notification.NoLongerProtecting := by
  induction ks generalizing st with
  | nil => simp
  | cons k ks ih =>
    rw [List.foldl_cons, ih]
    by_cases hany : saves.any (fun save => decide (save.Name = k)) = true
    · simp [forgetStep, hany, List.filter]
    · simp [forgetStep, hany, List.filter]

/-! ## What one reconciliation yields -/

/-- The deletions of a cycle: first the saves that differ from the tracker, then
the saves that differ from `found`, each in the order of the listing. -/
theorem reconcile_deleted (t : Tracked) (saves : List Save) :
    (reconcile t saves).deleted =
      saves.filter (differs t) ++ saves.filter (differs (scan t saves).found) := by
  simp only [reconcile, supersede_fold, scan_deleted]

/-- The returned tracker, slot by slot: nothing for a name without a save in the
listing, else the tracked incarnation when there was one, else what `found`
holds. -/
theorem reconcile_lookup (t : Tracked) (saves : List Save) (n : GoString) :
    (reconcile t saves).tracker.lookup n =
      if ∃ sv ∈ saves, sv.Name = n then
        match t.lookup n with
        | some g => some g
        | none => (scan t saves).found.lookup n
      else none := by
  have hc := commit_fold_tracker (scan t saves).found.entries (scan t saves).found.nodupKeys
    (t, []) n
  have hF : List.dlookup n (scan t saves).found.entries = (scan t saves).found.lookup n := rfl
  rw [hF] at hc
  simp only [reconcile]
  rw [forget_fold_tracker]
  by_cases hsv : ∃ sv ∈ saves, sv.Name = n
  · simp only [hsv, not_true_eq_false, and_false, if_false, if_true]
    rw [hc]
    cases ht : t.lookup n with
    | some g =>
      have : (scan t saves).found.lookup n = none :=
        (scan_found_none t saves n).mpr (Or.inl (by rw [ht]; simp))
      rw [this]
    | none => cases (scan t saves).found.lookup n <;> rfl
  · simp only [hsv, not_false_eq_true, and_true, if_false]
    split
    · rfl
    · rename_i hk
      exact AList.lookup_eq_none.mpr (fun h => hk (AList.mem_keys.mp h))

theorem differs_eq_true (m : Tracked) (sv : Save) :
    differs m sv = true ↔ ∃ g, m.lookup sv.Name = some g ∧ g ≠ sv.Incarnation := by
  unfold differs
  cases m.lookup sv.Name with
  | none => simp
  | some g => simp

/-- A save is handed to `deleteFile` exactly when it is in the listing and
differs from the tracker or from `found`. -/
theorem mem_reconcile_deleted (t : Tracked) (saves : List Save) (sv : Save) :
    sv ∈ (reconcile t saves).deleted ↔
      sv ∈ saves ∧ ((∃ g, t.lookup sv.Name = some g ∧ g ≠ sv.Incarnation) ∨
        ∃ g, (scan t saves).found.lookup sv.Name = some g ∧ g ≠ sv.Incarnation) := by
  rw [reconcile_deleted, List.mem_append, List.mem_filter, List.mem_filter, differs_eq_true,
    differs_eq_true]
  constructor
  · rintro (⟨h, h'⟩ | ⟨h, h'⟩)
    · exact ⟨h, Or.inl h'⟩
    · exact ⟨h, Or.inr h'⟩
  · rintro ⟨h, h' | h'⟩
    · exact Or.inl ⟨h, h'⟩
    · exact Or.inr ⟨h, h'⟩

/-- For an untracked slot name with a save in the listing, `found` holds a value. -/
theorem scan_found_of_untracked (t : Tracked) (saves : List Save) (sv : Save) (hsv : sv ∈ saves)
    (ht : t.lookup sv.Name = none) : ∃ g, (scan t saves).found.lookup sv.Name = some g := by
  cases hf : (scan t saves).found.lookup sv.Name with
  | some g => exact ⟨g, rfl⟩
  | none =>
    rcases (scan_found_none t saves sv.Name).mp hf with h | h
    · exact absurd ht h
    · exact absurd rfl (h sv hsv)

/-- The keys of the returned tracker are the slot names of the listing. -/
theorem mem_reconcile_tracker (t : Tracked) (saves : List Save) (n : GoString) :
    n ∈ (reconcile t saves).tracker ↔ ∃ sv ∈ saves, sv.Name = n := by
  rw [← AList.lookup_isSome, reconcile_lookup]
  by_cases hsv : ∃ sv ∈ saves, sv.Name = n
  · simp only [hsv, if_true, iff_true]
    cases ht : t.lookup n with
    | some g => rfl
    | none =>
      obtain ⟨sv, hm, rfl⟩ := hsv
      obtain ⟨g, hg⟩ := scan_found_of_untracked t saves sv hm ht
      simp [hg]
  · simp [hsv]

theorem forget_fold_id (saves : List Save) (ks : List GoString)
    (st : Tracked × List Notification) (h : ∀ k ∈ ks, ∃ sv ∈ saves, sv.Name = k) :
    ks.foldl (forgetStep saves) st = st := by
  induction ks with
  | nil => rfl
  | cons k ks ih =>
    have hstep : forgetStep saves st k = st := by
      obtain ⟨sv, hm, he⟩ := h k (List.mem_cons_self _ _)
      have : saves.any (fun save => decide (save.Name = k)) = true :=
        List.any_eq_true.mpr ⟨sv, hm, by simpa using he⟩
      simp [forgetStep, this]
    rw [List.foldl_cons, hstep]
    exact ih (fun k' hk' => h k' (List.mem_cons_of_mem _ hk'))

theorem alist_eq_empty_of_lookup (m : Tracked) (h : ∀ n, m.lookup n = none) : m = ∅ := by
  apply AList.ext
  cases he : m.entries with
  | nil => rfl
  | cons e l =>
    have := h e.1
    have hl : m.lookup e.1 = List.dlookup e.1 m.entries := rfl
    rw [hl, he, List.dlookup_cons_eq] at this
    cases this

/-- Two filters that never both keep a member select, together, what the filter
of their disjunction selects. -/
theorem filter_append_perm (p q : Save → Bool) (l : List Save)
    (h : ∀ x ∈ l, ¬ (p x = true ∧ q x = true)) :
    (l.filter p ++ l.filter q).Perm (l.filter (fun x => p x || q x)) := by
  induction l with
  | nil => simp
  | cons x l ih =>
    have ih' := ih (fun y hy => h y (List.mem_cons_of_mem _ hy))
    have hx := h x (List.mem_cons_self _ _)
    cases hp : p x <;> cases hq : q x
    · simpa [List.filter, hp, hq] using ih'
    · simp only [List.filter, hp, hq, Bool.false_or]
      exact List.perm_middle.trans (List.Perm.cons x ih')
    · simp only [List.filter, hp, hq, Bool.true_or, List.cons_append]
      exact List.Perm.cons x ih'
    · exact absurd ⟨hp, hq⟩ hx

/-- On a tracker returned for the same listing, the first loop finds nothing. -/
theorem scan_found_after (t : Tracked) (saves : List Save) :
    (scan (reconcile t saves).tracker saves).found = ∅ := by
  apply alist_eq_empty_of_lookup
  intro n
  rw [scan_found_none]
  by_cases hsv : ∃ sv ∈ saves, sv.Name = n
  · left
    have := (mem_reconcile_tracker t saves n).mpr hsv
    rw [← AList.lookup_isSome] at this
    intro hnone
    rw [hnone] at this
    cases this
  · right
    intro sv hm he
    exact hsv ⟨sv, hm, he⟩

/-- On the listing, a save differs from the returned tracker exactly when it
differed from the tracker or from `found`, and never from both. -/
theorem differs_after (t : Tracked) (saves : List Save) (sv : Save) (hsv : sv ∈ saves) :
    differs (reconcile t saves).tracker sv =
        (differs t sv || differs (scan t saves).found sv) ∧
      ¬ (differs t sv = true ∧ differs (scan t saves).found sv = true) := by
  have hl := reconcile_lookup t saves sv.Name
  rw [if_pos ⟨sv, hsv, rfl⟩] at hl
  cases ht : t.lookup sv.Name with
  | some g =>
    have hF : (scan t saves).found.lookup sv.Name = none :=
      (scan_found_none t saves sv.Name).mpr (Or.inl (by rw [ht]; simp))
    rw [ht] at hl
    simp [differs, hl, ht, hF]
  | none =>
    rw [ht] at hl
    simp [differs, hl, ht]

/-! ## Further facts about the codec -/

theorem atoiBody_of_parse (neg : Bool) (body : GoString) (u : Nat) (hne : body ≠ [])
    (hp : parseDigits 0 body = some u) :
    atoiBody neg body =
      if inIntRange (if neg then -(u : Int) else (u : Int)) then
        .ok (if neg then -(u : Int) else (u : Int))
      else .error .ErrRange := by
  cases body with
  | nil => exact absurd rfl hne
  | cons c cs => simp only [atoiBody, hp]

theorem Atoi_of_digit_head (c : Char) (cs : GoString) (hc : isDigit c) :
    Atoi (c :: cs) = atoiBody false (c :: cs) := by
  have h1 : c ≠ '+' := by rintro rfl; revert hc; decide
  have h2 : c ≠ '-' := by rintro rfl; revert hc; decide
  simp only [Atoi, h1, h2, if_false]

/-- What `strconv.Atoi` reads from a decimal rendering with leading zeros. -/
theorem Atoi_zeros_decimal (k u : Nat) :
    Atoi (List.replicate k '0' ++ decimal u) =
      if inIntRange (u : Int) then .ok (u : Int) else .error .ErrRange := by
  have hne : List.replicate k '0' ++ decimal u ≠ [] := by
    simp [decimal, fmtDigits_ne_nil]
  have hp : parseDigits 0 (List.replicate k '0' ++ decimal u) = some u := by
    rw [parseDigits_zeros, parseDigits_decimal]
  have hd : ∀ c ∈ List.replicate k '0' ++ decimal u, isDigit c := by
    intro c hc
    rcases List.mem_append.mp hc with h | h
    · rw [List.eq_of_mem_replicate h]; decide
    · exact isDigit_of_mem_fmtDigits u u c h
  have hb := atoiBody_of_parse false _ u hne hp
  simp only [Bool.false_eq_true, if_false] at hb
  generalize List.replicate k '0' ++ decimal u = body at hne hd hb
  cases body with
  | nil => exact absurd rfl hne
  | cons c cs => rw [Atoi_of_digit_head c cs (hd c (List.mem_cons_self _ _))]; exact hb

theorem tilde_not_mem_zeros_decimal (k u : Nat) : '~' ∉ List.replicate k '0' ++ decimal u := by
  intro hc
  rcases List.mem_append.mp hc with h | h
  · have := List.eq_of_mem_replicate h
    revert this; decide
  · have := isDigit_of_mem_fmtDigits u u _ h
    revert this; decide

theorem atoiBody_false_nonneg (body : GoString) (v : Int) (h : atoiBody false body = .ok v) :
    0 ≤ v := by
  cases body with
  | nil => simp [atoiBody] at h
  | cons c cs =>
    simp only [atoiBody] at h
    cases hp : parseDigits 0 (c :: cs) with
    | none => rw [hp] at h; cases h
    | some un =>
      rw [hp] at h
      simp only [Bool.false_eq_true, if_false] at h
      split at h
      · cases h; exact Int.ofNat_nonneg un
      · cases h

/-- A text `strconv.Atoi` accepts that does not start with `-` has a value of at
least 0. -/
theorem Atoi_nonneg (s : GoString) (v : Int) (h : Atoi s = .ok v) (hminus : s.head? ≠ some '-') :
    0 ≤ v := by
  cases s with
  | nil => simp [Atoi] at h
  | cons c cs =>
    have hc : c ≠ '-' := by
      intro e; apply hminus; simp [e]
    simp only [Atoi, hc, if_false] at h
    split at h
    · exact atoiBody_false_nonneg _ _ h
    · exact atoiBody_false_nonneg _ _ h

theorem length_fmtDigits_le (fuel u k : Nat) (hk : 0 < k) (hu : u < 10 ^ k) :
    (fmtDigits fuel u []).length ≤ k := by
  induction fuel generalizing u k with
  | zero => simpa [fmtDigits] using hk
  | succ fuel ih =>
    simp only [fmtDigits]
    split
    · rename_i h10
      obtain ⟨j, rfl⟩ : ∃ j, k = j + 1 := ⟨k - 1, by omega⟩
      have hj : 0 < j := by
        rcases Nat.eq_zero_or_pos j with h0 | h0
        · subst h0; simp at hu; omega
        · exact h0
      have hu' : u / 10 < 10 ^ j := by
        rw [Nat.div_lt_iff_lt_mul (by norm_num)]
        rw [pow_succ] at hu
        exact hu
      rw [fmtDigits_acc]
      simp only [List.length_append, List.length_singleton]
      have := ih (u / 10) j hj hu'
      omega
    · simpa using hk

/-- The decoding loop of `poll` panics exactly when some name of the listing ends
with `.tunic` and is rejected by `getIncarnation`. -/
theorem readSaves_eq_none (files : List GoString) :
    readSaves files = none ↔
      ∃ f ∈ files, HasSuffix f tunicExt = true ∧ (getIncarnation f).2 ≠ none := by
  induction files with
  | nil => simp [readSaves]
  | cons name files ih =>
    by_cases hs : HasSuffix name tunicExt = true
    · cases hg : getIncarnation name with
      | mk save err =>
        cases err with
        | some e =>
          simp only [readSaves, hs, hg]
          simp only [Bool.not_true, Bool.false_eq_true, if_false, true_iff]
          exact ⟨name, List.mem_cons_self _ _, hs, by rw [hg]; simp⟩
        | none =>
          simp only [readSaves, hs, hg]
          simp only [Bool.not_true, Bool.false_eq_true, if_false, Option.map_eq_none', ih]
          constructor
          · rintro ⟨f, hf, h1, h2⟩
            exact ⟨f, List.mem_cons_of_mem _ hf, h1, h2⟩
          · rintro ⟨f, hf, h1, h2⟩
            rcases List.mem_cons.mp hf with rfl | hf
            · rw [hg] at h2; exact absurd rfl h2
            · exact ⟨f, hf, h1, h2⟩
    · simp only [readSaves, hs, Bool.not_false, if_true, ih]
      constructor
      · rintro ⟨f, hf, h1, h2⟩
        exact ⟨f, List.mem_cons_of_mem _ hf, h1, h2⟩
      · rintro ⟨f, hf, h1, h2⟩
        rcases List.mem_cons.mp hf with rfl | hf
        · exact absurd h1 hs
        · exact ⟨f, hf, h1, h2⟩

/-- When every `.tunic` name of the listing decodes, the decoding loop yields the
decoded saves of the `.tunic` names, in the order of the listing. -/
theorem readSaves_eq_some (files : List GoString)
    (h : ∀ f ∈ files, HasSuffix f tunicExt = true → (getIncarnation f).2 = none) :
    readSaves files =
      some ((files.filter (fun f => HasSuffix f tunicExt)).map (fun f => (getIncarnation f).1)) := by
  induction files with
  | nil => rfl
  | cons name files ih =>
    have ih' := ih (fun f hf => h f (List.mem_cons_of_mem _ hf))
    by_cases hs : HasSuffix name tunicExt = true
    · have hd := h name (List.mem_cons_self _ _) hs
      cases hg : getIncarnation name with
      | mk save err =>
        rw [hg] at hd
        simp only at hd
        subst hd
        simp [readSaves, hs, hg, ih', List.filter]
    · simp [readSaves, hs, ih', List.filter]

/-! ## Further facts about one reconciliation -/

/-- After the first loop, `found` holds `g` for `n` exactly when `n` is untracked
and `g` is the highest incarnation of `n` in the listing. -/
theorem scan_found_eq_some_iff (t : Tracked) (saves : List Save) (n : GoString) (g : Int) :
    (scan t saves).found.lookup n = some g ↔
      n ∉ t ∧ (∃ sv ∈ saves, sv.Name = n ∧ sv.Incarnation = g) ∧
        ∀ sv ∈ saves, sv.Name = n → sv.Incarnation ≤ g := by
  constructor
  · intro h
    have hmax := scan_found_some t saves n g h
    refine ⟨?_, hmax⟩
    intro hmem
    have hnone := (scan_found_none t saves n).mpr
      (Or.inl (fun e => AList.lookup_eq_none.mp e hmem))
    rw [hnone] at h
    cases h
  · rintro ⟨ht, ⟨sv, hsv, hname, hinc⟩, hmax⟩
    subst hname
    obtain ⟨g', hg'⟩ := scan_found_of_untracked t saves sv hsv (AList.lookup_eq_none.mpr ht)
    obtain ⟨⟨o, ho, hon, hog⟩, hmax'⟩ := scan_found_some t saves sv.Name g' hg'
    have : g' = g := by
      apply le_antisymm
      · rw [← hog]; exact hmax o ho hon
      · rw [← hinc]; exact hmax' sv hsv rfl
    rw [hg', this]

/-- The notifications of a cycle: one `Protecting` per entry of `found`, then one
`NoLongerProtecting` per key of the committed map without a save in the listing. -/
theorem reconcile_notes (t : Tracked) (saves : List Save) :
    (reconcile t saves).notes =
      (scan t saves).found.entries.map (fun e => Notification.Protecting e.1 e.2) ++
      (((scan t saves).found.entries.foldl commitStep (t, [])).1.keys.filter
        (fun k => !saves.any (fun save => decide (save.Name = k)))).map
        Notification.NoLongerProtecting := by
  simp only [reconcile, forget_fold_notes, commit_fold_notes, List.nil_append]

theorem any_name_iff (saves : List Save) (n : GoString) :
    saves.any (fun save => decide (save.Name = n)) = true ↔ ∃ sv ∈ saves, sv.Name = n := by
  simp [List.any_eq_true]

/-- A key of the committed map without a save in the listing is a key of the
tracker the cycle started with. -/
theorem mem_committed_iff (t : Tracked) (saves : List Save) (n : GoString)
    (hno : ¬ ∃ sv ∈ saves, sv.Name = n) :
    n ∈ ((scan t saves).found.entries.foldl commitStep (t, [])).1 ↔ n ∈ t := by
  have hc := commit_fold_tracker (scan t saves).found.entries (scan t saves).found.nodupKeys
    (t, []) n
  have hF : List.dlookup n (scan t saves).found.entries = none :=
    (scan_found_none t saves n).mpr (Or.inr (fun sv hm he => hno ⟨sv, hm, he⟩))
  rw [hF] at hc
  rw [← AList.lookup_isSome, ← AList.lookup_isSome, hc]

/-- The first loop does not depend on the order of the listing. -/
theorem scan_found_perm (t : Tracked) (s₁ s₂ : List Save) (h : s₁.Perm s₂) (n : GoString) :
    (scan t s₁).found.lookup n = (scan t s₂).found.lookup n := by
  apply Option.ext
  intro g
  simp only [Option.mem_def, scan_found_eq_some_iff]
  constructor
  · rintro ⟨ht, ⟨sv, hsv, h1, h2⟩, hmax⟩
    exact ⟨ht, ⟨sv, h.subset hsv, h1, h2⟩, fun o ho => hmax o (h.symm.subset ho)⟩
  · rintro ⟨ht, ⟨sv, hsv, h1, h2⟩, hmax⟩
    exact ⟨ht, ⟨sv, h.symm.subset hsv, h1, h2⟩, fun o ho => hmax o (h.subset ho)⟩

theorem differs_congr (m₁ m₂ : Tracked) (sv : Save)
    (h : m₁.lookup sv.Name = m₂.lookup sv.Name) : differs m₁ sv = differs m₂ sv := by
  simp only [differs, h]

theorem mem_notes_protecting (t : Tracked) (saves : List Save) (n : GoString) (g : Int) :
    Notification.Protecting n g ∈ (reconcile t saves).notes ↔
      n ∉ t ∧ (∃ sv ∈ saves, sv.Name = n ∧ sv.Incarnation = g) ∧
        ∀ sv ∈ saves, sv.Name = n → sv.Incarnation ≤ g := by
  rw [← scan_found_eq_some_iff, reconcile_notes, List.mem_append]
  have hl : (scan t saves).found.lookup n = some g ↔
      (⟨n, g⟩ : Sigma fun _ : GoString => Int) ∈ (scan t saves).found.entries :=
    AList.mem_lookup_iff
  rw [hl]
  constructor
  · rintro (h | h)
    · obtain ⟨e, he, heq⟩ := List.mem_map.mp h
      obtain ⟨k, v⟩ := e
      simp only [Notification.Protecting.injEq] at heq
      obtain ⟨rfl, rfl⟩ := heq
      exact he
    · obtain ⟨k, _, heq⟩ := List.mem_map.mp h
      cases heq
  · intro h
    exact Or.inl (List.mem_map.mpr ⟨⟨n, g⟩, h, rfl⟩)

theorem mem_notes_noLonger (t : Tracked) (saves : List Save) (n : GoString) :
    Notification.NoLongerProtecting n ∈ (reconcile t saves).notes ↔
      n ∈ t ∧ ∀ sv ∈ saves, sv.Name ≠ n := by
  rw [reconcile_notes, List.mem_append]
  have hno_iff : (∀ sv ∈ saves, sv.Name ≠ n) ↔ ¬ ∃ sv ∈ saves, sv.Name = n := by
    constructor
    · rintro h ⟨sv, hm, he⟩; exact h sv hm he
    · intro h sv hm he; exact h ⟨sv, hm, he⟩
  constructor
  · rintro (h | h)
    · obtain ⟨e, _, heq⟩ := List.mem_map.mp h
      cases heq
    · obtain ⟨k, hk, heq⟩ := List.mem_map.mp h
      simp only [Notification.NoLongerProtecting.injEq] at heq
      subst heq
      rw [List.mem_filter] at hk
      obtain ⟨hkeys, hany⟩ := hk
      have hno : ¬ ∃ sv ∈ saves, sv.Name = k := by
        rw [← any_name_iff]
        simpa using hany
      exact ⟨(mem_committed_iff t saves k hno).mp (AList.mem_keys.mpr hkeys), hno_iff.mpr hno⟩
  · rintro ⟨ht, hno⟩
    have hno' := hno_iff.mp hno
    right
    refine List.mem_map.mpr ⟨n, List.mem_filter.mpr ⟨?_, ?_⟩, rfl⟩
    · exact AList.mem_keys.mp ((mem_committed_iff t saves n hno').mpr ht)
    · rw [← any_name_iff] at hno'
      simpa using hno'

theorem reconcile_notes_nodup (t : Tracked) (saves : List Save) :
    (reconcile t saves).notes.Nodup := by
  rw [reconcile_notes]
  apply List.Nodup.append
  · apply List.Nodup.map
    · rintro ⟨a, b⟩ ⟨c, d⟩ h
      simp only [Notification.Protecting.injEq] at h
      obtain ⟨rfl, rfl⟩ := h
      rfl
    · exact (scan t saves).found.nodupKeys.nodup
  · apply List.Nodup.map
    · intro a b h
      simpa using h
    · exact (AList.keys_nodup _).filter _
  · intro x hx hy
    obtain ⟨e, _, rfl⟩ := List.mem_map.mp hx
    obtain ⟨k, _, hk⟩ := List.mem_map.mp hy
    cases hk

/-- The returned tracker, slot by slot, does not depend on the order of the
listing. -/
theorem reconcile_lookup_perm (t : Tracked) (s₁ s₂ : List Save) (h : s₁.Perm s₂) (n : GoString) :
    (reconcile t s₁).tracker.lookup n = (reconcile t s₂).tracker.lookup n := by
  rw [reconcile_lookup, reconcile_lookup, scan_found_perm t s₁ s₂ h n]
  have hiff : (∃ sv ∈ s₁, sv.Name = n) ↔ ∃ sv ∈ s₂, sv.Name = n := by
    constructor
    · rintro ⟨sv, hm, he⟩; exact ⟨sv, h.subset hm, he⟩
    · rintro ⟨sv, hm, he⟩; exact ⟨sv, h.symm.subset hm, he⟩
  by_cases h1 : ∃ sv ∈ s₁, sv.Name = n
  · rw [if_pos h1, if_pos (hiff.mp h1)]
  · rw [if_neg h1, if_neg (fun h2 => h1 (hiff.mpr h2))]

/-- The deletions of a cycle on two orders of one listing are permutations of
each other. -/
theorem reconcile_deleted_perm (t : Tracked) (s₁ s₂ : List Save) (h : s₁.Perm s₂) :
    ((reconcile t s₁).deleted).Perm (reconcile t s₂).deleted := by
  rw [reconcile_deleted, reconcile_deleted]
  have hcongr : s₂.filter (differs (scan t s₂).found) = s₂.filter (differs (scan t s₁).found) :=
    List.filter_congr (fun x _ => differs_congr _ _ x (scan_found_perm t s₁ s₂ h x.Name).symm)
  rw [hcongr]
  exact (h.filter _).append (h.filter _)

/-- No save differs both from the tracker and from `found`. -/
theorem not_differs_both (t : Tracked) (saves : List Save) (sv : Save)
    (h1 : differs t sv = true) (h2 : differs (scan t saves).found sv = true) : False := by
  obtain ⟨g, hg, _⟩ := (differs_eq_true t sv).mp h1
  obtain ⟨g', hg', _⟩ := (differs_eq_true _ sv).mp h2
  have := (scan_found_none t saves sv.Name).mpr (Or.inl (by rw [hg]; simp))
  rw [this] at hg'
  cases hg'

/-! ## The run of `poll` on a directory -/

theorem runDeletes_append (l₁ l₂ : List Save) (dir : Directory) :
    runDeletes (l₁ ++ l₂) dir =
      match runDeletes l₁ dir with
      | .error d => .error d
      | .ok d => runDeletes l₂ d := by
  induction l₁ generalizing dir with
  | nil => rfl
  | cons x l ih =>
    simp only [List.cons_append, runDeletes, forSaves]
    cases deleteFile x dir with
    | error d => rfl
    | ok d => exact ih d

/-- An iteration of the first loop on the directory calls `deleteFile` exactly
when the save differs from the tracker, and is the iteration `scanStep`
otherwise. -/
theorem pollScanStep_eq (t : Tracked) (st : Scan) (dir : Directory) (save : Save) :
    pollScanStep t (st, dir) save =
      if differs t save then
        match deleteFile save dir with
        | .error d => .error d
        | .ok d => .ok (scanStep t st save, d)
      else .ok (scanStep t st save, dir) := by
  cases ht : t.lookup save.Name with
  | some tracked =>
    by_cases hne : tracked = save.Incarnation
    · simp [pollScanStep, scanStep, differs, ht, hne]
    · simp only [pollScanStep, scanStep, differs, ht, ne_eq, hne, not_false_eq_true, if_true,
        decide_True]
  | none =>
    cases hf : st.found.lookup save.Name with
    | some stored =>
      by_cases hgt : save.Incarnation > stored <;>
        simp [pollScanStep, scanStep, differs, ht, hf, hgt]
    | none => simp [pollScanStep, scanStep, differs, ht, hf]

theorem pollSupersedeStep_eq (found : Tracked) (deleted : List Save) (dir : Directory)
    (save : Save) :
    pollSupersedeStep found (deleted, dir) save =
      if differs found save then
        match deleteFile save dir with
        | .error d => .error d
        | .ok d => .ok (supersedeStep found deleted save, d)
      else .ok (supersedeStep found deleted save, dir) := by
  cases hf : found.lookup save.Name with
  | some stored =>
    by_cases hne : stored = save.Incarnation
    · simp [pollSupersedeStep, supersedeStep, differs, hf, hne]
    · simp only [pollSupersedeStep, supersedeStep, differs, hf, ne_eq, hne, not_false_eq_true,
        if_true, decide_True]
  | none => simp [pollSupersedeStep, supersedeStep, differs, hf]

/-- The first loop on the directory: the loop of `scan`, with the deletions of
the saves that differ from the tracker carried out in order. -/
theorem forSaves_pollScanStep (t : Tracked) (saves : List Save) (st : Scan) (dir : Directory) :
    forSaves (pollScanStep t) (st, dir) saves =
      match runDeletes (saves.filter (differs t)) dir with
      | .error d => .error d
      | .ok d => .ok (saves.foldl (scanStep t) st, d) := by
  induction saves generalizing st dir with
  | nil => rfl
  | cons x xs ih =>
    simp only [forSaves, pollScanStep_eq, List.foldl_cons]
    by_cases hd : differs t x = true
    · simp only [hd, if_true, List.filter_cons_of_pos, runDeletes, forSaves]
      cases deleteFile x dir with
      | error d => rfl
      | ok d => exact ih _ d
    · simp only [hd, if_false, Bool.false_eq_true]
      rw [List.filter_cons_of_neg hd]
      exact ih _ dir

theorem forSaves_pollSupersedeStep (found : Tracked) (saves deleted : List Save)
    (dir : Directory) :
    forSaves (pollSupersedeStep found) (deleted, dir) saves =
      match runDeletes (saves.filter (differs found)) dir with
      | .error d => .error d
      | .ok d => .ok (saves.foldl (supersedeStep found) deleted, d) := by
  induction saves generalizing deleted dir with
  | nil => rfl
  | cons x xs ih =>
    simp only [forSaves, pollSupersedeStep_eq, List.foldl_cons]
    by_cases hd : differs found x = true
    · simp only [hd, if_true, List.filter_cons_of_pos, runDeletes, forSaves]
      cases deleteFile x dir with
      | error d => rfl
      | ok d => exact ih _ d
    · simp only [hd, if_false, Bool.false_eq_true]
      rw [List.filter_cons_of_neg hd]
      exact ih _ dir

/-- Once the names are decoded, a run of `poll` is the reconciliation of the
decoded saves with its deletions carried out in order on the directory: it
panics where one of them does, and returns what `reconcile` yields otherwise. -/
theorem poll_eq_reconcile (t : Tracked) (dir : Directory) (saves : List Save)
    (h : readSaves dir = some saves) :
    poll t dir =
      match runDeletes (reconcile t saves).deleted dir with
      | .error d => .error d
      | .ok d => .ok (reconcile t saves, d) := by
  rw [reconcile_deleted, runDeletes_append]
  simp only [poll, h, forSaves_pollScanStep, scan]
  cases runDeletes (saves.filter (differs t)) dir with
  | error d => rfl
  | ok d =>
    simp only [forSaves_pollSupersedeStep]
    cases runDeletes
        (saves.filter (differs (List.foldl (scanStep t) ⟨∅, []⟩ saves).found)) d with
    | error d' => rfl
    | ok d' => rfl

/-- A file outside the naming convention makes `deleteFile` panic: with the empty
tracker and the directory `hero~000000000003.tunic`, `hero~1.tunic`, the
superseded `(hero, 1)` is looked for under `hero~000000000001.tunic`. -/
theorem poll_panics_in_deleteFile :
    (poll ∅ ["hero~000000000003.tunic".toList, "hero~1.tunic".toList]).toBool = false ∧
    (poll ∅ ["hero~000000000003.tunic".toList, "hero~000000000001.tunic".toList]).toBool
      = true := by
  decide

/-! ## The claims -/

/-- C1: round trip of the filename codec.  For every valid save (non-empty slot
name without `~`, incarnation at least 0 and, being a Go `int`, below `2^63`),
`getIncarnation` decodes the file name `deleteFile` builds for it without error
and returns exactly that save. -/
theorem C1_decode_encode_roundtrip (s : Save) (_hname : s.Name ≠ []) (htilde : '~' ∉ s.Name)
    (h0 : 0 ≤ s.Incarnation) (hint : s.Incarnation < (2 : Int) ^ 63) :
    getIncarnation (deleteFileName s) = (s, none) :=
  getIncarnation_deleteFileName s htilde ⟨le_trans (by norm_num) h0, hint⟩

/-- C1 at the save `("hero", 5)`, whose file is `hero~000000000005.tunic`. -/
theorem C1_decode_encode_roundtrip_witness :
    deleteFileName ⟨"hero".toList, 5⟩ = "hero~000000000005.tunic".toList ∧
    getIncarnation (deleteFileName ⟨"hero".toList, 5⟩) = (⟨"hero".toList, 5⟩, none) :=
  ⟨by decide,
    C1_decode_encode_roundtrip ⟨"hero".toList, 5⟩ (by decide) (by decide) (by decide) (by decide)⟩

/-- C2: enforcement of existing protection.  For every save of the listing whose
slot name is tracked at incarnation `g`, `poll` hands the save to `deleteFile`
if and only if its incarnation is not `g`, and the returned tracker still maps
the slot name to `g`. -/
theorem C2_enforce_tracked (t : Tracked) (saves : List Save) (sv : Save) (g : Int)
    (hsv : sv ∈ saves) (ht : t.lookup sv.Name = some g) :
    (sv ∈ (reconcile t saves).deleted ↔ sv.Incarnation ≠ g) ∧
    (reconcile t saves).tracker.lookup sv.Name = some g := by
  have hF : (scan t saves).found.lookup sv.Name = none :=
    (scan_found_none t saves sv.Name).mpr (Or.inl (by rw [ht]; simp))
  constructor
  · rw [mem_reconcile_deleted, ht, hF]
    constructor
    · rintro ⟨_, ⟨g', hg', hne⟩ | ⟨g', hg', _⟩⟩
      · cases hg'; exact fun e => hne e.symm
      · cases hg'
    · intro hne
      exact ⟨hsv, Or.inl ⟨g, rfl, fun e => hne e.symm⟩⟩
  · rw [reconcile_lookup, if_pos ⟨sv, hsv, rfl⟩, ht]

/-- C2 on scenario C: tracker `{hero: 3}`, listing `(hero, 3), (hero, 5)`; only
`(hero, 5)` is deleted, the tracker is unchanged and nothing is announced. -/
theorem C2_enforce_tracked_witness :
    ((⟨"hero".toList, 5⟩ : Save) ∈ (reconcile ((∅ : Tracked).insert "hero".toList 3)
        [⟨"hero".toList, 3⟩, ⟨"hero".toList, 5⟩]).deleted ↔ (5 : Int) ≠ 3) ∧
    (reconcile ((∅ : Tracked).insert "hero".toList 3)
        [⟨"hero".toList, 3⟩, ⟨"hero".toList, 5⟩]).tracker.lookup "hero".toList = some 3 ∧
    (reconcile ((∅ : Tracked).insert "hero".toList 3)
        [⟨"hero".toList, 3⟩, ⟨"hero".toList, 5⟩]).deleted = [⟨"hero".toList, 5⟩] ∧
    (reconcile ((∅ : Tracked).insert "hero".toList 3)
        [⟨"hero".toList, 3⟩, ⟨"hero".toList, 5⟩]).tracker.entries = [⟨"hero".toList, 3⟩] ∧
    (reconcile ((∅ : Tracked).insert "hero".toList 3)
        [⟨"hero".toList, 3⟩, ⟨"hero".toList, 5⟩]).notes = [] :=
  ⟨(C2_enforce_tracked ((∅ : Tracked).insert "hero".toList 3)
      [⟨"hero".toList, 3⟩, ⟨"hero".toList, 5⟩] ⟨"hero".toList, 5⟩ 3 (by decide) (by decide)).1,
   (C2_enforce_tracked ((∅ : Tracked).insert "hero".toList 3)
      [⟨"hero".toList, 3⟩, ⟨"hero".toList, 5⟩] ⟨"hero".toList, 5⟩ 3 (by decide) (by decide)).2,
   by decide, by decide, by decide⟩

/-- C3: survivor choice.  For every slot name that occurs in the listing and is
not a key of the tracker, the returned tracker maps it to the maximum
incarnation among the saves of that name in the listing: an incarnation that
occurs there under that name and is at least every other one. -/
theorem C3_survivor_is_maximum (t : Tracked) (saves : List Save) (n : GoString)
    (hn : ∃ sv ∈ saves, sv.Name = n) (ht : n ∉ t) :
    ∃ g, (reconcile t saves).tracker.lookup n = some g ∧
      (∃ sv ∈ saves, sv.Name = n ∧ sv.Incarnation = g) ∧
      ∀ sv ∈ saves, sv.Name = n → sv.Incarnation ≤ g := by
  have ht' : t.lookup n = none := AList.lookup_eq_none.mpr ht
  obtain ⟨sv, hsv, rfl⟩ := hn
  obtain ⟨g, hg⟩ := scan_found_of_untracked t saves sv hsv ht'
  refine ⟨g, ?_, scan_found_some t saves sv.Name g hg⟩
  rw [reconcile_lookup, if_pos ⟨sv, hsv, rfl⟩, ht', hg]

/-- C3 on scenario B (empty tracker, listing `(hero, 0), (hero, 3), (hero, 1)`,
result `{hero: 3}`) and on scenario A (listing `(hero, 0)`, result `{hero: 0}`). -/
theorem C3_survivor_is_maximum_witness :
    (∃ g, (reconcile ∅ [⟨"hero".toList, 0⟩, ⟨"hero".toList, 3⟩,
        ⟨"hero".toList, 1⟩]).tracker.lookup "hero".toList = some g ∧
      (∃ sv ∈ ([⟨"hero".toList, 0⟩, ⟨"hero".toList, 3⟩, ⟨"hero".toList, 1⟩] : List Save),
        sv.Name = "hero".toList ∧ sv.Incarnation = g) ∧
      ∀ sv ∈ ([⟨"hero".toList, 0⟩, ⟨"hero".toList, 3⟩, ⟨"hero".toList, 1⟩] : List Save),
        sv.Name = "hero".toList → sv.Incarnation ≤ g) ∧
    (reconcile ∅ [⟨"hero".toList, 0⟩, ⟨"hero".toList, 3⟩,
        ⟨"hero".toList, 1⟩]).tracker.entries = [⟨"hero".toList, 3⟩] ∧
    (reconcile ∅ [⟨"hero".toList, 0⟩]).tracker.entries = [⟨"hero".toList, 0⟩] :=
  ⟨C3_survivor_is_maximum ∅ [⟨"hero".toList, 0⟩, ⟨"hero".toList, 3⟩, ⟨"hero".toList, 1⟩]
      "hero".toList ⟨⟨"hero".toList, 0⟩, by decide, rfl⟩ (by decide),
   by decide, by decide⟩

/-- C4: deletion of superseded newcomers.  For a save of the listing whose slot
name is not a key of the tracker, and `g` the maximum incarnation of that name in
the listing, `poll` hands the save to `deleteFile` if and only if its incarnation
is not `g`.  In particular, when the untracked saves of the listing have pairwise
distinct slot names, no save of an untracked slot is deleted, and with the empty
tracker of a fresh start nothing is deleted at all. -/
theorem C4_delete_superseded (t : Tracked) (saves : List Save) :
    (∀ sv ∈ saves, sv.Name ∉ t → ∀ g : Int,
      (∃ o ∈ saves, o.Name = sv.Name ∧ o.Incarnation = g) →
      (∀ o ∈ saves, o.Name = sv.Name → o.Incarnation ≤ g) →
      (sv ∈ (reconcile t saves).deleted ↔ sv.Incarnation ≠ g)) ∧
    (((saves.filter (fun sv => decide (sv.Name ∉ t))).map Save.Name).Nodup →
      ∀ sv ∈ saves, sv.Name ∉ t → sv ∉ (reconcile t saves).deleted) ∧
    ((saves.map Save.Name).Nodup → (reconcile ∅ saves).deleted = []) := by
  have part1 : ∀ (t : Tracked) (saves : List Save), ∀ sv ∈ saves, sv.Name ∉ t → ∀ g : Int,
      (∃ o ∈ saves, o.Name = sv.Name ∧ o.Incarnation = g) →
      (∀ o ∈ saves, o.Name = sv.Name → o.Incarnation ≤ g) →
      (sv ∈ (reconcile t saves).deleted ↔ sv.Incarnation ≠ g) := by
    intro t saves sv hsv ht g ⟨o, ho, hon, hog⟩ hmax
    have ht' : t.lookup sv.Name = none := AList.lookup_eq_none.mpr ht
    obtain ⟨g', hg'⟩ := scan_found_of_untracked t saves sv hsv ht'
    obtain ⟨⟨o', ho', hon', hog'⟩, hmax'⟩ := scan_found_some t saves sv.Name g' hg'
    have hgg : g' = g := by
      apply le_antisymm
      · rw [← hog']; exact hmax o' ho' hon'
      · rw [← hog]; exact hmax' o ho hon
    subst hgg
    rw [mem_reconcile_deleted, ht', hg']
    constructor
    · rintro ⟨_, ⟨x, hx, _⟩ | ⟨x, hx, hne⟩⟩
      · cases hx
      · cases hx; exact fun e => hne e.symm
    · intro hne
      exact ⟨hsv, Or.inr ⟨g', rfl, fun e => hne e.symm⟩⟩
  have part2 : ∀ (t : Tracked) (saves : List Save),
      ((saves.filter (fun sv => decide (sv.Name ∉ t))).map Save.Name).Nodup →
      ∀ sv ∈ saves, sv.Name ∉ t → sv ∉ (reconcile t saves).deleted := by
    intro t saves hnd sv hsv ht hdel
    have ht' : t.lookup sv.Name = none := AList.lookup_eq_none.mpr ht
    obtain ⟨g', hg'⟩ := scan_found_of_untracked t saves sv hsv ht'
    obtain ⟨⟨o, ho, hon, hog⟩, hmax⟩ := scan_found_some t saves sv.Name g' hg'
    have hne : sv.Incarnation ≠ g' :=
      (part1 t saves sv hsv ht g' ⟨o, ho, hon, hog⟩ hmax).mp hdel
    have hmem : ∀ x ∈ saves, x.Name = sv.Name →
        x ∈ saves.filter (fun sv => decide (sv.Name ∉ t)) := by
      intro x hx hxn
      rw [List.mem_filter]
      exact ⟨hx, by simpa [hxn] using ht⟩
    have := List.inj_on_of_nodup_map hnd (hmem o ho hon) (hmem sv hsv rfl) hon
    rw [this] at hog
    exact hne hog
  refine ⟨part1 t saves, part2 t saves, ?_⟩
  intro hnd
  apply List.eq_nil_iff_forall_not_mem.mpr
  intro sv hdel
  have hsv : sv ∈ saves := ((mem_reconcile_deleted ∅ saves sv).mp hdel).1
  have hall : saves.filter (fun sv => decide (sv.Name ∉ (∅ : Tracked))) = saves := by
    rw [List.filter_eq_self]
    intro x _
    simp
  exact part2 ∅ saves (by rw [hall]; exact hnd) sv hsv (AList.not_mem_empty _) hdel

/-- C4 on scenario B, where `(hero, 0)` is superseded by `(hero, 3)`, and on a
listing with one file per slot, where nothing is deleted. -/
theorem C4_delete_superseded_witness :
    ((⟨"hero".toList, 0⟩ : Save) ∈ (reconcile ∅ [⟨"hero".toList, 0⟩, ⟨"hero".toList, 3⟩,
        ⟨"hero".toList, 1⟩]).deleted ↔ (0 : Int) ≠ 3) ∧
    (reconcile ∅ [⟨"hero".toList, 0⟩, ⟨"hero".toList, 3⟩, ⟨"hero".toList, 1⟩]).deleted
      = [⟨"hero".toList, 0⟩, ⟨"hero".toList, 1⟩] ∧
    (⟨"hero".toList, 7⟩ : Save) ∉ (reconcile ((∅ : Tracked).insert "link".toList 2)
        [⟨"hero".toList, 7⟩, ⟨"link".toList, 4⟩]).deleted ∧
    (reconcile ∅ [⟨"hero".toList, 7⟩, ⟨"link".toList, 4⟩]).deleted = [] :=
  ⟨(C4_delete_superseded ∅ [⟨"hero".toList, 0⟩, ⟨"hero".toList, 3⟩, ⟨"hero".toList, 1⟩]).1
      ⟨"hero".toList, 0⟩ (by decide) (by decide) 3 ⟨⟨"hero".toList, 3⟩, by decide, rfl, rfl⟩
      (by decide),
   by decide,
   (C4_delete_superseded ((∅ : Tracked).insert "link".toList 2)
      [⟨"hero".toList, 7⟩, ⟨"link".toList, 4⟩]).2.1 (by decide) ⟨"hero".toList, 7⟩ (by decide)
      (by decide),
   (C4_delete_superseded ∅ [⟨"hero".toList, 7⟩, ⟨"link".toList, 4⟩]).2.2 (by decide)⟩

/-- C5: garbage collection of vanished slots, decided on the listing.  A slot
name is a key of the returned tracker if and only if some save of the listing
has that name; so a key without a save is dropped, and a tracked slot stays
tracked at its incarnation even when all its saves are deleted in this call.
On scenario D (tracker `{hero: 3}`, empty listing) the result is the empty
tracker and no deletion. -/
theorem C5_tracked_iff_in_listing :
    (∀ (t : Tracked) (saves : List Save) (n : GoString),
      n ∈ (reconcile t saves).tracker ↔ ∃ sv ∈ saves, sv.Name = n) ∧
    (∀ (t : Tracked) (saves : List Save) (n : GoString) (g : Int), t.lookup n = some g →
      (∃ sv ∈ saves, sv.Name = n) →
      (∀ sv ∈ saves, sv.Name = n → sv ∈ (reconcile t saves).deleted) →
      (reconcile t saves).tracker.lookup n = some g) ∧
    (reconcile ((∅ : Tracked).insert "hero".toList 3) []).tracker.entries = [] ∧
    (reconcile ((∅ : Tracked).insert "hero".toList 3) []).deleted = [] := by
  refine ⟨mem_reconcile_tracker, ?_, by decide, by decide⟩
  · intro t saves n g ht hsv _
    rw [reconcile_lookup, if_pos hsv, ht]

/-- C5 on a tracked slot whose only file in the listing is deleted in this call:
tracker `{hero: 3}`, listing `(hero, 5)`; `hero` stays tracked at 3. -/
theorem C5_tracked_iff_in_listing_witness :
    (reconcile ((∅ : Tracked).insert "hero".toList 3) [⟨"hero".toList, 5⟩]).deleted
      = [⟨"hero".toList, 5⟩] ∧
    (reconcile ((∅ : Tracked).insert "hero".toList 3)
      [⟨"hero".toList, 5⟩]).tracker.lookup "hero".toList = some 3 :=
  ⟨by decide,
   C5_tracked_iff_in_listing.2.1 ((∅ : Tracked).insert "hero".toList 3) [⟨"hero".toList, 5⟩]
     "hero".toList 3 (by decide) ⟨⟨"hero".toList, 5⟩, by decide, rfl⟩ (by decide)⟩

/-- C6: at most one incarnation per slot survives a cycle.  Two saves of the
listing with the same slot name, neither of which `poll` hands to `deleteFile`,
have the same incarnation. -/
theorem C6_one_survivor_per_slot (t : Tracked) (saves : List Save) (a b : Save)
    (ha : a ∈ saves) (hb : b ∈ saves) (hn : a.Name = b.Name)
    (hda : a ∉ (reconcile t saves).deleted) (hdb : b ∉ (reconcile t saves).deleted) :
    a.Incarnation = b.Incarnation := by
  rw [mem_reconcile_deleted] at hda hdb
  cases ht : t.lookup a.Name with
  | some g =>
    have h1 : g = a.Incarnation := by
      by_contra hne
      exact hda ⟨ha, Or.inl ⟨g, ht, hne⟩⟩
    have h2 : g = b.Incarnation := by
      by_contra hne
      exact hdb ⟨hb, Or.inl ⟨g, hn ▸ ht, hne⟩⟩
    rw [← h1, ← h2]
  | none =>
    obtain ⟨g, hg⟩ := scan_found_of_untracked t saves a ha ht
    have h1 : g = a.Incarnation := by
      by_contra hne
      exact hda ⟨ha, Or.inr ⟨g, hg, hne⟩⟩
    have h2 : g = b.Incarnation := by
      by_contra hne
      exact hdb ⟨hb, Or.inr ⟨g, hn ▸ hg, hne⟩⟩
    rw [← h1, ← h2]

/-- C6 on tracker `{hero: 3}` and listing `(hero, 3), (hero, 5)`: `(hero, 5)` is
deleted and what survives of `hero` is at incarnation 3 only. -/
theorem C6_one_survivor_per_slot_witness :
    (reconcile ((∅ : Tracked).insert "hero".toList 3)
      [⟨"hero".toList, 3⟩, ⟨"hero".toList, 5⟩]).deleted = [⟨"hero".toList, 5⟩] ∧
    (⟨"hero".toList, 3⟩ : Save).Incarnation = (⟨"hero".toList, 3⟩ : Save).Incarnation :=
  ⟨by decide,
   C6_one_survivor_per_slot ((∅ : Tracked).insert "hero".toList 3)
     [⟨"hero".toList, 3⟩, ⟨"hero".toList, 5⟩] ⟨"hero".toList, 3⟩ ⟨"hero".toList, 3⟩
     (by decide) (by decide) rfl (by decide) (by decide)⟩

/-- C7, the claim as stated fails: with tracker `{hero: 3}` and the listing
`(hero, 5)` the returned tracker holds `hero` at 3, and no save of the listing
is `(hero, 3)`. -/
theorem C7_counterexample :
    ([⟨"hero".toList, 5⟩] : List Save).Nodup ∧
    (reconcile ((∅ : Tracked).insert "hero".toList 3)
      [⟨"hero".toList, 5⟩]).tracker.lookup "hero".toList = some 3 ∧
    ([⟨"hero".toList, 5⟩] : List Save).count ⟨"hero".toList, 3⟩ = 0 := by
  decide

/-- C7, amended: after any call of `poll` on a listing of pairwise distinct
saves, for every slot name `n` the returned tracker holds at incarnation `g`,
the listing has a save named `n` and at most one save `(n, g)`; it has exactly
one when `n` was not a key of the tracker before the call, or when `(n, g)` is
in the listing. -/
theorem C7_tracked_save_in_listing (t : Tracked) (saves : List Save) (n : GoString) (g : Int)
    (hnd : saves.Nodup) (hg : (reconcile t saves).tracker.lookup n = some g) :
    (∃ sv ∈ saves, sv.Name = n) ∧ saves.count ⟨n, g⟩ ≤ 1 ∧
    ((n ∉ t ∨ (⟨n, g⟩ : Save) ∈ saves) → saves.count ⟨n, g⟩ = 1) := by
  have hsv : ∃ sv ∈ saves, sv.Name = n := by
    rw [← mem_reconcile_tracker t saves n, ← AList.lookup_isSome, hg]
    rfl
  refine ⟨hsv, List.nodup_iff_count_le_one.mp hnd _, ?_⟩
  rintro (ht | hmem)
  · rw [reconcile_lookup, if_pos hsv, AList.lookup_eq_none.mpr ht] at hg
    obtain ⟨⟨sv, hm, hname, hinc⟩, _⟩ := scan_found_some t saves n g hg
    have : sv = ⟨n, g⟩ := by
      cases sv
      simp only at hname hinc
      rw [hname, hinc]
    exact List.count_eq_one_of_mem hnd (this ▸ hm)
  · exact List.count_eq_one_of_mem hnd hmem

/-- C7 amended, on scenario B: the returned tracker holds `hero` at 3 and the
listing has exactly one `(hero, 3)`. -/
theorem C7_tracked_save_in_listing_witness :
    (∃ sv ∈ ([⟨"hero".toList, 0⟩, ⟨"hero".toList, 3⟩, ⟨"hero".toList, 1⟩] : List Save),
      sv.Name = "hero".toList) ∧
    ([⟨"hero".toList, 0⟩, ⟨"hero".toList, 3⟩, ⟨"hero".toList, 1⟩] : List Save).count
      ⟨"hero".toList, 3⟩ ≤ 1 ∧
    (("hero".toList ∉ (∅ : Tracked) ∨ (⟨"hero".toList, 3⟩ : Save) ∈
        ([⟨"hero".toList, 0⟩, ⟨"hero".toList, 3⟩, ⟨"hero".toList, 1⟩] : List Save)) →
      ([⟨"hero".toList, 0⟩, ⟨"hero".toList, 3⟩, ⟨"hero".toList, 1⟩] : List Save).count
        ⟨"hero".toList, 3⟩ = 1) :=
  C7_tracked_save_in_listing ∅ [⟨"hero".toList, 0⟩, ⟨"hero".toList, 3⟩, ⟨"hero".toList, 1⟩]
    "hero".toList 3 (by decide) (by decide)

/-- C8, the claim as stated fails: with tracker `{hero: 3}` and the listing
`(hero, 3), (hero, 5)`, a second call on the returned tracker and the same
listing asks again for the deletion of `(hero, 5)`. -/
theorem C8_counterexample :
    (reconcile (reconcile ((∅ : Tracked).insert "hero".toList 3)
        [⟨"hero".toList, 3⟩, ⟨"hero".toList, 5⟩]).tracker
      [⟨"hero".toList, 3⟩, ⟨"hero".toList, 5⟩]).deleted = [⟨"hero".toList, 5⟩] := by
  decide

/-- C8, amended: a second call of `poll` on the returned tracker and the same
listing prints no notification, returns the same tracker, and hands to
`deleteFile` the saves the first call handed to it, each as often (so none when
the first call deleted none). -/
theorem C8_second_call (t : Tracked) (saves : List Save) :
    (reconcile (reconcile t saves).tracker saves).notes = [] ∧
    (reconcile (reconcile t saves).tracker saves).tracker = (reconcile t saves).tracker ∧
    ((reconcile (reconcile t saves).tracker saves).deleted).Perm (reconcile t saves).deleted := by
  have hF := scan_found_after t saves
  have hkeys : ∀ k ∈ (reconcile t saves).tracker.keys, ∃ sv ∈ saves, sv.Name = k :=
    fun k hk => (mem_reconcile_tracker t saves k).mp (AList.mem_keys.mpr hk)
  have hfinal : ((reconcile t saves).tracker.keys.foldl (forgetStep saves)
      ((reconcile t saves).tracker, [])) = ((reconcile t saves).tracker, []) :=
    forget_fold_id saves _ _ hkeys
  have hrun : ∀ r : Tracked, (scan r saves).found = ∅ →
      (reconcile r saves).tracker = (r.keys.foldl (forgetStep saves) (r, [])).1 ∧
      (reconcile r saves).notes = (r.keys.foldl (forgetStep saves) (r, [])).2 := by
    intro r hr
    simp only [reconcile, hr]
    exact ⟨rfl, rfl⟩
  obtain ⟨h1, h2⟩ := hrun (reconcile t saves).tracker hF
  refine ⟨by rw [h2, hfinal], by rw [h1, hfinal], ?_⟩
  rw [reconcile_deleted (reconcile t saves).tracker, hF, reconcile_deleted t saves]
  have hempty : saves.filter (differs ∅) = [] := by
    rw [List.filter_eq_nil_iff]
    intro x _
    simp [differs]
  rw [hempty, List.append_nil]
  have hcongr : saves.filter (differs (reconcile t saves).tracker) =
      saves.filter (fun x => differs t x || differs (scan t saves).found x) :=
    List.filter_congr (fun x hx => (differs_after t saves x hx).1)
  rw [hcongr]
  exact (filter_append_perm _ _ saves (fun x hx => (differs_after t saves x hx).2)).symm

/-- C9, the claim as stated fails: `hero~5.tunic` ends with `.tunic` and decodes
without error to `(hero, 5)`, for which `deleteFile` builds
`hero~000000000005.tunic`, another name. -/
theorem C9_counterexample :
    HasSuffix "hero~5.tunic".toList tunicExt = true ∧
    getIncarnation "hero~5.tunic".toList = (⟨"hero".toList, 5⟩, none) ∧
    deleteFileName ⟨"hero".toList, 5⟩ = "hero~000000000005.tunic".toList ∧
    deleteFileName ⟨"hero".toList, 5⟩ ≠ "hero~5.tunic".toList := by
  decide

/-- C9, amended: for every file name that ends with `.tunic`, follows the on-disk
convention (no `~` before `.tunic`, or the `%012d` rendering of an incarnation
other than 0 after the last `~`) and is decoded by `getIncarnation` without
error to a save `s`, the name `deleteFile` builds for `s` is that file name. -/
theorem C9_delete_decoded_file (f : GoString) (s : Save)
    (hext : HasSuffix f tunicExt = true) (hconv : followsConvention f)
    (hdec : getIncarnation f = (s, none)) : deleteFileName s = f :=
  deleteFileName_getIncarnation f s hext hdec hconv

/-- C9 amended, on `hero~000000000005.tunic`. -/
theorem C9_delete_decoded_file_witness :
    getIncarnation "hero~000000000005.tunic".toList = (⟨"hero".toList, 5⟩, none) ∧
    deleteFileName ⟨"hero".toList, 5⟩ = "hero~000000000005.tunic".toList :=
  ⟨by decide,
   C9_delete_decoded_file "hero~000000000005.tunic".toList ⟨"hero".toList, 5⟩ (by decide)
     (Or.inr ⟨5, by decide, by decide⟩) (by decide)⟩

/-- C10, the claim as stated fails: the distinct names `hero~5.tunic` and
`hero~05.tunic` both decode without error to `(hero, 5)`, and the distinct names
`hero.tunic` and `hero~0.tunic` both to `(hero, 0)`. -/
theorem C10_counterexample :
    "hero~5.tunic".toList ≠ "hero~05.tunic".toList ∧
    HasSuffix "hero~5.tunic".toList tunicExt = true ∧
    HasSuffix "hero~05.tunic".toList tunicExt = true ∧
    getIncarnation "hero~5.tunic".toList = (⟨"hero".toList, 5⟩, none) ∧
    getIncarnation "hero~05.tunic".toList = (⟨"hero".toList, 5⟩, none) ∧
    "hero.tunic".toList ≠ "hero~0.tunic".toList ∧
    getIncarnation "hero.tunic".toList = (⟨"hero".toList, 0⟩, none) ∧
    getIncarnation "hero~0.tunic".toList = (⟨"hero".toList, 0⟩, none) := by
  decide

/-- C10, amended: the codec is collision-free on the names of the on-disk
convention.  Two distinct file names that end with `.tunic`, follow the
convention and are both decoded by `getIncarnation` without error give saves
that differ in slot name or in incarnation. -/
theorem C10_collision_free (f₁ f₂ : GoString) (hne : f₁ ≠ f₂)
    (hext₁ : HasSuffix f₁ tunicExt = true) (hext₂ : HasSuffix f₂ tunicExt = true)
    (hconv₁ : followsConvention f₁) (hconv₂ : followsConvention f₂)
    (hdec₁ : (getIncarnation f₁).2 = none) (hdec₂ : (getIncarnation f₂).2 = none) :
    (getIncarnation f₁).1.Name ≠ (getIncarnation f₂).1.Name ∨
    (getIncarnation f₁).1.Incarnation ≠ (getIncarnation f₂).1.Incarnation := by
  by_contra hcon
  simp only [not_or, not_not] at hcon
  have hs : (getIncarnation f₁).1 = (getIncarnation f₂).1 := by
    cases h1 : (getIncarnation f₁).1
    cases h2 : (getIncarnation f₂).1
    rw [h1, h2] at hcon
    simp only at hcon
    rw [hcon.1, hcon.2]
  have e₁ := deleteFileName_getIncarnation f₁ (getIncarnation f₁).1 hext₁
    (Prod.ext rfl hdec₁) hconv₁
  have e₂ := deleteFileName_getIncarnation f₂ (getIncarnation f₂).1 hext₂
    (Prod.ext rfl hdec₂) hconv₂
  exact hne (by rw [← e₁, ← e₂, hs])

/-- C10 amended, on `hero~000000000005.tunic` and `hero~000000000007.tunic`. -/
theorem C10_collision_free_witness :
    (getIncarnation "hero~000000000005.tunic".toList).1.Name
        ≠ (getIncarnation "hero~000000000007.tunic".toList).1.Name ∨
    (getIncarnation "hero~000000000005.tunic".toList).1.Incarnation
        ≠ (getIncarnation "hero~000000000007.tunic".toList).1.Incarnation :=
  C10_collision_free "hero~000000000005.tunic".toList "hero~000000000007.tunic".toList
    (by decide) (by decide) (by decide) (Or.inr ⟨5, by decide, by decide⟩)
    (Or.inr ⟨7, by decide, by decide⟩) (by decide) (by decide)

/-- C11: decoding splits at the last delimiter.  For every file name
`n ++ "~" ++ d ++ ".tunic"` where `d` is the decimal rendering of a natural number
`g` that fits an `int`, with any number `k` of leading zeros (so `d` has no `~`),
`getIncarnation` returns without error the save with slot name `n`, which may
itself contain `~`, and incarnation `g`. -/
theorem C11_split_at_last_delimiter (n : GoString) (k g : Nat) (hfit : (g : Int) < (2 : Int) ^ 63) :
    '~' ∉ List.replicate k '0' ++ decimal g ∧
    getIncarnation (n ++ '~' :: (List.replicate k '0' ++ decimal g) ++ tunicExt)
      = (⟨n, (g : Int)⟩, none) := by
  have hno := tilde_not_mem_zeros_decimal k g
  refine ⟨hno, ?_⟩
  have hr : inIntRange (g : Int) :=
    ⟨le_trans (by norm_num) (Int.ofNat_nonneg g), hfit⟩
  rw [getIncarnation_split n _ hno, Atoi_zeros_decimal, if_pos hr]

/-- C11 on `a~b~0012.tunic`, which decodes to slot name `a~b` at incarnation 12. -/
theorem C11_split_at_last_delimiter_witness :
    "a~b".toList ++ '~' :: (List.replicate 2 '0' ++ decimal 12) ++ tunicExt
      = "a~b~0012.tunic".toList ∧
    getIncarnation ("a~b".toList ++ '~' :: (List.replicate 2 '0' ++ decimal 12) ++ tunicExt)
      = (⟨"a~b".toList, 12⟩, none) :=
  ⟨by decide, (C11_split_at_last_delimiter "a~b".toList 2 12 (by decide)).2⟩

/-- C12: a malformed incarnation is a decode error and is never coerced to 0.
For every file name whose text before `.tunic` splits at its last `~` into `a`
and `d`, where `strconv.Atoi` rejects `d` with the error `e` (the empty text is
rejected), `getIncarnation` returns the error `e` together with the save of
slot name `a` and incarnation `-1`; so it does not return success, with
incarnation 0 or any other. -/
theorem C12_malformed_is_error (name a d : GoString) (e : NumError)
    (hstem : TrimSuffix name tunicExt = a ++ '~' :: d) (hd : '~' ∉ d)
    (herr : Atoi d = .error e) :
    getIncarnation name = (⟨a, -1⟩, some e) ∧ Atoi [] = .error .ErrSyntax := by
  refine ⟨?_, rfl⟩
  have hl : LastIndex (a ++ '~' :: d) '~' = (a.length : Int) := LastIndex_append_cons _ _ _ hd
  have hne : ¬ ((a.length : Int) = -1) := by omega
  have h1 : ((a.length : Int) + 1).toNat = a.length + 1 := by omega
  simp only [getIncarnation, hstem, hl, hne, if_false, h1, Int.toNat_ofNat,
    drop_after_delimiter, herr]
  simp

/-- C12 on `hero~.tunic`, with nothing after the `~`, and on `hero~x1.tunic`. -/
theorem C12_malformed_is_error_witness :
    getIncarnation "hero~.tunic".toList = (⟨"hero".toList, -1⟩, some .ErrSyntax) ∧
    getIncarnation "hero~x1.tunic".toList = (⟨"hero".toList, -1⟩, some .ErrSyntax) :=
  ⟨(C12_malformed_is_error "hero~.tunic".toList "hero".toList [] .ErrSyntax (by decide)
      (by decide) rfl).1,
   by decide⟩

/-- C13, the claim as stated fails: `hero~-5.tunic` ends with `.tunic` and is
decoded without error, to incarnation `-5`. -/
theorem C13_counterexample :
    HasSuffix "hero~-5.tunic".toList tunicExt = true ∧
    getIncarnation "hero~-5.tunic".toList = (⟨"hero".toList, -5⟩, none) ∧
    (getIncarnation "hero~-5.tunic".toList).1.Incarnation < 0 := by
  decide

/-- C13, amended: for every file name ending with `.tunic` on which
`getIncarnation` returns no error, the decoded incarnation is at least 0 unless
the text after the last `~` starts with a minus sign. -/
theorem C13_decoded_incarnation_nonneg (name : GoString)
    (_hext : HasSuffix name tunicExt = true) (hdec : (getIncarnation name).2 = none)
    (hminus : LastIndex (TrimSuffix name tunicExt) '~' ≠ -1 →
      ((TrimSuffix name tunicExt).drop
        (LastIndex (TrimSuffix name tunicExt) '~' + 1).toNat).head? ≠ some '-') :
    0 ≤ (getIncarnation name).1.Incarnation := by
  unfold getIncarnation at hdec ⊢
  by_cases hl : LastIndex (TrimSuffix name tunicExt) '~' = -1
  · simp [hl]
  · simp only [hl, if_false] at hdec ⊢
    cases ha : Atoi ((TrimSuffix name tunicExt).drop
        (LastIndex (TrimSuffix name tunicExt) '~' + 1).toNat) with
    | error e => rw [ha] at hdec; cases hdec
    | ok v => exact Atoi_nonneg _ v ha (hminus hl)

/-- C13 amended, on `hero~+5.tunic`, whose signed suffix is accepted. -/
theorem C13_decoded_incarnation_nonneg_witness :
    getIncarnation "hero~+5.tunic".toList = (⟨"hero".toList, 5⟩, none) ∧
    0 ≤ (getIncarnation "hero~+5.tunic".toList).1.Incarnation :=
  ⟨by decide,
   C13_decoded_incarnation_nonneg "hero~+5.tunic".toList (by decide) (by decide)
     (fun _ => by decide)⟩

/-- C14: the file names of the encoder.  For incarnation 0 `deleteFile` builds
`Name ++ ".tunic"`; for `0 < g < 10^12` it builds `Name ++ "~" ++ D ++ ".tunic"`
where `D` is the decimal rendering of `g` padded with zeros: exactly 12
characters, all decimal digits, of value `g`. -/
theorem C14_encoder_convention (n : GoString) :
    deleteFileName ⟨n, 0⟩ = n ++ tunicExt ∧
    ∀ g : Int, 0 < g → g < 10 ^ 12 →
      ∃ D : GoString, deleteFileName ⟨n, g⟩ = n ++ '~' :: D ++ tunicExt ∧
        D = zeroPad 12 (decimal g.toNat) ∧ D.length = 12 ∧ (∀ c ∈ D, isDigit c) ∧
        parseDigits 0 D = some g.toNat := by
  refine ⟨by simp [deleteFileName], ?_⟩
  intro g h0 h12
  have hg : g ≠ 0 := by omega
  have hnn : ¬ g < 0 := by omega
  have hnat : g.natAbs = g.toNat := by omega
  refine ⟨zeroPad 12 (decimal g.toNat), ?_, rfl, ?_, ?_, parseDigits_zeroPad 12 g.toNat⟩
  · simp [deleteFileName, hg, Sprintf012d, hnn, hnat]
  · have hlen : (decimal g.toNat).length ≤ 12 :=
      length_fmtDigits_le g.toNat g.toNat 12 (by norm_num) (by omega)
    simp only [zeroPad, List.length_append, List.length_replicate]
    omega
  · exact fun c hc => isDigit_of_mem_zeroPad 12 g.toNat c hc

/-- C14 on `(hero, 5)`, whose file is `hero~000000000005.tunic`, and on
`(hero, 0)`, whose file is `hero.tunic`. -/
theorem C14_encoder_convention_witness :
    deleteFileName ⟨"hero".toList, 0⟩ = "hero.tunic".toList ∧
    deleteFileName ⟨"hero".toList, 5⟩ = "hero~000000000005.tunic".toList ∧
    ∃ D : GoString, deleteFileName ⟨"hero".toList, 5⟩ = "hero".toList ++ '~' :: D ++ tunicExt ∧
      D = zeroPad 12 (decimal (5 : Int).toNat) ∧ D.length = 12 ∧ (∀ c ∈ D, isDigit c) ∧
      parseDigits 0 D = some (5 : Int).toNat :=
  ⟨by decide, by decide,
   (C14_encoder_convention "hero".toList).2 5 (by decide) (by decide)⟩

/-- C15, the claim as stated fails: on the directory with the valid name
`hero.tunic` and the name `weird~x.tunic`, whose suffix does not parse, `poll`
panics and returns nothing, while it returns on the directory without that
name. -/
theorem C15_counterexample :
    HasSuffix "weird~x.tunic".toList tunicExt = true ∧
    (getIncarnation "weird~x.tunic".toList).2 = some .ErrSyntax ∧
    (poll ∅ ["hero.tunic".toList, "weird~x.tunic".toList]).toBool = false ∧
    (poll ∅ ["hero.tunic".toList]).toBool = true := by
  decide

/-- C15, amended: a malformed file name aborts the cycle.  For every tracker and
every directory with a name that ends with `.tunic` and that `getIncarnation`
rejects, `poll` does not return: it panics while decoding the names, with the
directory as it was, so that no file is deleted and no slot adopted. -/
theorem C15_malformed_name_aborts (t : Tracked) (dir : Directory)
    (h : ∃ f ∈ dir, HasSuffix f tunicExt = true ∧ (getIncarnation f).2 ≠ none) :
    poll t dir = .error dir := by
  have hr := (readSaves_eq_none dir).mpr h
  simp only [poll, hr]

/-- C15 amended, on the directory `hero~000000000003.tunic`, `hero.tunic`,
`weird~x.tunic` and the empty tracker: `poll` panics and the superseded
`hero.tunic` is still there. -/
theorem C15_malformed_name_aborts_witness :
    poll ∅ ["hero~000000000003.tunic".toList, "hero.tunic".toList, "weird~x.tunic".toList]
      = .error ["hero~000000000003.tunic".toList, "hero.tunic".toList,
          "weird~x.tunic".toList] :=
  C15_malformed_name_aborts ∅
    ["hero~000000000003.tunic".toList, "hero.tunic".toList, "weird~x.tunic".toList]
    ⟨"weird~x.tunic".toList, by decide, by decide, by decide⟩

/-- C16, the claim as stated fails: `getIncarnation` returns no error on
`weird~~12.tunic`. -/
theorem C16_counterexample :
    (getIncarnation "weird~~12.tunic".toList).2 = none := by
  decide

/-- C16, amended: `getIncarnation` accepts `weird~~12.tunic`; it splits at the
last `~` and returns, without error, the save with slot name `weird~` and
incarnation 12. -/
theorem C16_weird_name_decodes :
    getIncarnation "weird~~12.tunic".toList = (⟨"weird~".toList, 12⟩, none) := by
  decide

/-- C17: the notifications of `poll` are exactly the adoption and drop events.
No notification is printed twice; `Protecting n g` is printed exactly when `n` is
not a key of the tracker and `g` is the maximum incarnation of `n` in the
listing; `NoLongerProtecting n` is printed exactly when `n` is a key of the
tracker without a save in the listing; so a cycle in which every save is of a
tracked slot and every tracked slot has a save prints none. -/
theorem C17_notifications (t : Tracked) (saves : List Save) :
    (reconcile t saves).notes.Nodup ∧
    (∀ n g, Notification.Protecting n g ∈ (reconcile t saves).notes ↔
      n ∉ t ∧ (∃ sv ∈ saves, sv.Name = n ∧ sv.Incarnation = g) ∧
        ∀ sv ∈ saves, sv.Name = n → sv.Incarnation ≤ g) ∧
    (∀ n, Notification.NoLongerProtecting n ∈ (reconcile t saves).notes ↔
      n ∈ t ∧ ∀ sv ∈ saves, sv.Name ≠ n) ∧
    ((∀ sv ∈ saves, sv.Name ∈ t) → (∀ n ∈ t, ∃ sv ∈ saves, sv.Name = n) →
      (reconcile t saves).notes = []) := by
  refine ⟨reconcile_notes_nodup t saves, mem_notes_protecting t saves,
    mem_notes_noLonger t saves, ?_⟩
  intro hall hkeys
  apply List.eq_nil_iff_forall_not_mem.mpr
  intro x hx
  cases x with
  | Protecting n g =>
    obtain ⟨hnt, ⟨sv, hsv, hname, _⟩, _⟩ := (mem_notes_protecting t saves n g).mp hx
    exact hnt (hname ▸ hall sv hsv)
  | NoLongerProtecting n =>
    obtain ⟨hnt, hno⟩ := (mem_notes_noLonger t saves n).mp hx
    obtain ⟨sv, hsv, hname⟩ := hkeys n hnt
    exact hno sv hsv hname

/-- C17 on scenario A (empty tracker, listing `(hero, 0)`: one `Protecting hero 0`),
on scenario D (tracker `{hero: 3}`, empty listing: one `NoLongerProtecting hero`)
and on scenario C (enforcement only: no notification). -/
theorem C17_notifications_witness :
    (reconcile ∅ [⟨"hero".toList, 0⟩]).notes = [Notification.Protecting "hero".toList 0] ∧
    (reconcile ((∅ : Tracked).insert "hero".toList 3) []).notes
      = [Notification.NoLongerProtecting "hero".toList] ∧
    (reconcile ((∅ : Tracked).insert "hero".toList 3)
      [⟨"hero".toList, 3⟩, ⟨"hero".toList, 5⟩]).notes = [] :=
  ⟨by decide, by decide,
   (C17_notifications ((∅ : Tracked).insert "hero".toList 3)
      [⟨"hero".toList, 3⟩, ⟨"hero".toList, 5⟩]).2.2.2 (by decide)
      (fun n hn => ⟨⟨"hero".toList, 3⟩, by decide,
        (List.mem_singleton.mp (show n ∈ ["hero".toList] from hn)).symm⟩)⟩

/-- C18: re-adoption after a drop.  When the tracker holds `n`, the listing `s₁`
has no save named `n` and the listing `s₂` has one, then `poll` on `s₁` drops
`n`, and `poll` on its result and `s₂` returns a tracker that maps `n` to the
maximum incarnation `m` of `n` in `s₂`, whatever the tracker held before, and
hands a save named `n` to `deleteFile` exactly when it is a save of `s₂` below
`m`. -/
theorem C18_readoption (t : Tracked) (s₁ s₂ : List Save) (n : GoString) (g : Int)
    (_ht : t.lookup n = some g) (h₁ : ∀ sv ∈ s₁, sv.Name ≠ n) (h₂ : ∃ sv ∈ s₂, sv.Name = n) :
    n ∉ (reconcile t s₁).tracker ∧
    ∃ m, (reconcile (reconcile t s₁).tracker s₂).tracker.lookup n = some m ∧
      (∃ sv ∈ s₂, sv.Name = n ∧ sv.Incarnation = m) ∧
      (∀ sv ∈ s₂, sv.Name = n → sv.Incarnation ≤ m) ∧
      ∀ sv : Save, sv.Name = n →
        (sv ∈ (reconcile (reconcile t s₁).tracker s₂).deleted ↔ sv ∈ s₂ ∧ sv.Incarnation < m) := by
  have hdrop : n ∉ (reconcile t s₁).tracker := by
    rw [mem_reconcile_tracker]
    rintro ⟨sv, hm, he⟩
    exact h₁ sv hm he
  refine ⟨hdrop, ?_⟩
  have hnone : (reconcile t s₁).tracker.lookup n = none := AList.lookup_eq_none.mpr hdrop
  obtain ⟨sv₀, hsv₀, rfl⟩ := h₂
  obtain ⟨m, hm⟩ := scan_found_of_untracked _ s₂ sv₀ hsv₀ hnone
  obtain ⟨hex, hmax⟩ := scan_found_some _ s₂ sv₀.Name m hm
  refine ⟨m, ?_, hex, hmax, ?_⟩
  · rw [reconcile_lookup, if_pos ⟨sv₀, hsv₀, rfl⟩, hnone, hm]
  · intro sv hname
    rw [mem_reconcile_deleted, hname, hnone, hm]
    constructor
    · rintro ⟨hsv, ⟨x, hx, _⟩ | ⟨x, hx, hne⟩⟩
      · cases hx
      · cases hx
        exact ⟨hsv, lt_of_le_of_ne (hmax sv hsv hname) (fun e => hne e.symm)⟩
    · rintro ⟨hsv, hlt⟩
      exact ⟨hsv, Or.inr ⟨m, rfl, fun e => absurd hlt (by rw [e]; exact lt_irrefl _)⟩⟩

/-- C18 on tracker `{hero: 9}`, then the empty listing, then the listing
`(hero, 2), (hero, 4)`: `hero` is adopted again at 4 and `(hero, 2)` is deleted. -/
theorem C18_readoption_witness :
    (reconcile (reconcile ((∅ : Tracked).insert "hero".toList 9) []).tracker
      [⟨"hero".toList, 2⟩, ⟨"hero".toList, 4⟩]).tracker.lookup "hero".toList = some 4 ∧
    (reconcile (reconcile ((∅ : Tracked).insert "hero".toList 9) []).tracker
      [⟨"hero".toList, 2⟩, ⟨"hero".toList, 4⟩]).deleted = [⟨"hero".toList, 2⟩] ∧
    "hero".toList ∉ (reconcile ((∅ : Tracked).insert "hero".toList 9) []).tracker :=
  ⟨by decide, by decide,
   (C18_readoption ((∅ : Tracked).insert "hero".toList 9) []
      [⟨"hero".toList, 2⟩, ⟨"hero".toList, 4⟩] "hero".toList 9 (by decide) (by decide)
      ⟨⟨"hero".toList, 2⟩, by decide, rfl⟩).1⟩

/-- C19: the order of the listing is irrelevant.  For two listings that are
permutations of each other, `poll` returns the same map (the same incarnation,
or none, for every slot name; the entries are permutations of each other) and
the lists of saves handed to `deleteFile` are permutations of each other. -/
theorem C19_order_irrelevant (t : Tracked) (s₁ s₂ : List Save) (h : s₁.Perm s₂) :
    (∀ n, (reconcile t s₁).tracker.lookup n = (reconcile t s₂).tracker.lookup n) ∧
    ((reconcile t s₁).tracker.entries).Perm (reconcile t s₂).tracker.entries ∧
    ((reconcile t s₁).deleted).Perm (reconcile t s₂).deleted := by
  refine ⟨reconcile_lookup_perm t s₁ s₂ h, ?_, reconcile_deleted_perm t s₁ s₂ h⟩
  apply List.lookup_ext (reconcile t s₁).tracker.nodupKeys (reconcile t s₂).tracker.nodupKeys
  intro x y
  have := reconcile_lookup_perm t s₁ s₂ h x
  simp only [AList.lookup] at this
  rw [this]

/-- C19 on the empty tracker and the listings `(a, 1), (b, 2), (a, 3)` and
`(a, 3), (b, 2), (a, 1)`. -/
theorem C19_order_irrelevant_witness :
    (reconcile ∅ [⟨"a".toList, 1⟩, ⟨"b".toList, 2⟩, ⟨"a".toList, 3⟩]).tracker.entries
      = [⟨"b".toList, 2⟩, ⟨"a".toList, 3⟩] ∧
    (reconcile ∅ [⟨"a".toList, 3⟩, ⟨"b".toList, 2⟩, ⟨"a".toList, 1⟩]).tracker.entries
      = [⟨"a".toList, 3⟩, ⟨"b".toList, 2⟩] ∧
    ((reconcile ∅ [⟨"a".toList, 1⟩, ⟨"b".toList, 2⟩, ⟨"a".toList, 3⟩]).deleted).Perm
      (reconcile ∅ [⟨"a".toList, 3⟩, ⟨"b".toList, 2⟩, ⟨"a".toList, 1⟩]).deleted :=
  ⟨by decide, by decide,
   (C19_order_irrelevant ∅ [⟨"a".toList, 1⟩, ⟨"b".toList, 2⟩, ⟨"a".toList, 3⟩]
      [⟨"a".toList, 3⟩, ⟨"b".toList, 2⟩, ⟨"a".toList, 1⟩] (by decide)).2.2⟩

/-- C20: no file is deleted twice in one cycle.  On a listing of pairwise
distinct saves, the list of saves `poll` hands to `deleteFile` has no save more
than once: the first loop only deletes saves of tracked slots, the second only
saves of slots in `found`, and no slot is in both. -/
theorem C20_no_double_deletion (t : Tracked) (saves : List Save) (hnd : saves.Nodup) :
    (reconcile t saves).deleted.Nodup ∧
    ∀ sv ∈ (reconcile t saves).deleted,
      (sv.Name ∈ t ∧ sv.Name ∉ (scan t saves).found) ∨
      (sv.Name ∉ t ∧ sv.Name ∈ (scan t saves).found) := by
  constructor
  · rw [reconcile_deleted]
    apply List.Nodup.append (hnd.filter _) (hnd.filter _)
    intro x hx hy
    exact not_differs_both t saves x (List.mem_filter.mp hx).2 (List.mem_filter.mp hy).2
  · intro sv hsv
    rw [mem_reconcile_deleted] at hsv
    rcases hsv with ⟨_, ⟨g, hg, _⟩ | ⟨g, hg, _⟩⟩
    · left
      have hmem : sv.Name ∈ t := by rw [← AList.lookup_isSome, hg]; rfl
      refine ⟨hmem, ?_⟩
      rw [← AList.lookup_eq_none, scan_found_none]
      exact Or.inl (by rw [hg]; simp)
    · right
      refine ⟨((scan_found_eq_some_iff t saves sv.Name g).mp hg).1, ?_⟩
      rw [← AList.lookup_isSome, hg]; rfl

/-- C20 on tracker `{link: 2}` and the listing `(hero, 0), (hero, 3), (link, 4)`:
`(link, 4)` and `(hero, 0)` are deleted, each once. -/
theorem C20_no_double_deletion_witness :
    (reconcile ((∅ : Tracked).insert "link".toList 2)
      [⟨"hero".toList, 0⟩, ⟨"hero".toList, 3⟩, ⟨"link".toList, 4⟩]).deleted
      = [⟨"link".toList, 4⟩, ⟨"hero".toList, 0⟩] ∧
    (reconcile ((∅ : Tracked).insert "link".toList 2)
      [⟨"hero".toList, 0⟩, ⟨"hero".toList, 3⟩, ⟨"link".toList, 4⟩]).deleted.Nodup :=
  ⟨by decide,
   (C20_no_double_deletion ((∅ : Tracked).insert "link".toList 2)
      [⟨"hero".toList, 0⟩, ⟨"hero".toList, 3⟩, ⟨"link".toList, 4⟩] (by decide)).1⟩

end TunicFreezer
